import Mathlib

/-!
# Tracer: a verification development of `Tracer.cpp`

`Tracer.cpp` is a module pass that instruments a program so that, when run, it
prints the order in which functions and basic blocks are executed.  The pass

* renames every basic block (`rename_bbs`),
* scans the module once and records the instructions in front of which a trace
  print has to be placed (`findTraceLocations`),
* inserts a call to `printf` in front of every recorded instruction
  (`Hello::runOnModule`).

The development below embeds these three steps as executable functions over an
explicit model of the intermediate representation and proves properties of them.

## Conventions of the embedding

* An instruction object is identified by its address (`Instruction.addr`); an
  `Instruction *` of the source is the address, a natural number.  Distinct
  objects have distinct addresses, which is the hypothesis `(allAddrs M).Nodup`
  of the theorems that speak about the identity of an instruction.
* `std::vector::push_back` appends at the end of a list.
* `Instruction::insertBefore(p)` dereferences `p`; when `p` is not the address
  of an instruction of the module the behaviour is undefined, which the
  embedding renders as `none`.
* A name holds no NUL character (the host compiler rejects such names); the
  message of a block entry is built with `strcpy`, which stops at a NUL.
* `findTraceLocations` receives `trace_begins` by value: its assignments to the
  parameter are local to the call.  The variable `trace_begins` of
  `runOnModule` is declared without initialiser and never assigned, so its
  value is indeterminate; it is a parameter of `runOnModule` below.
-/

namespace Tracer

/-! ## The intermediate representation -/

/-- Modelled from the spec: the function a direct call resolves to
(`CallInst::getCalledFunction`, a type of the host compiler): its name and
whether it is only a declaration. -/
structure Callee where
  name : String
  isDeclaration : Bool
deriving DecidableEq

/-- Modelled from the spec: the discriminated kind of an instruction of the
host compiler (`PHINode`, `CallInst`, `ReturnInst`, anything else).  A call
carries its resolved callee (`none` for an indirect call) and the string
constants passed as arguments. -/
inductive InstKind where
  | phi
  | call (callee : Option Callee) (args : List String)
  | ret
  | other
deriving DecidableEq

/-- Modelled from the spec: an instruction object of the host compiler, at
address `addr`. -/
structure Instruction where
  addr : Nat
  kind : InstKind
deriving DecidableEq

/-- Modelled from the spec: a basic block of the host compiler, a name and
the ordered sequence of its instructions. -/
structure BasicBlock where
  name : String
  insts : List Instruction
deriving DecidableEq

/-- Modelled from the spec: a function of the host compiler, its name, the
declaration flag and the ordered sequence of its blocks. -/
structure Function where
  name : String
  isDeclaration : Bool
  blocks : List BasicBlock
deriving DecidableEq

/-- Modelled from the spec: a module of the host compiler, the ordered list
of its functions. -/
abbrev Program := List Function

/-- All blocks of the module, functions in module order, blocks in function order. -/
def allBlocks (M : Program) : List BasicBlock :=
  M.flatMap (fun f => f.blocks)

/-- All instructions of the module in scan order. -/
def allInsts (M : Program) : List Instruction :=
  (allBlocks M).flatMap (fun b => b.insts)

/-- Addresses of the instructions of a block. -/
def blockAddrs (b : BasicBlock) : List Nat :=
  b.insts.map (fun i => i.addr)

/-- Addresses of all instructions of the module in scan order. -/
def allAddrs (M : Program) : List Nat :=
  (allInsts M).map (fun i => i.addr)

/-- The test `isa<PHINode>(inst)`. -/
def isPHINode (i : Instruction) : Bool :=
  match i.kind with
  | .phi => true
  | _ => false

/-- The test `dyn_cast<ReturnInst>(inst)` succeeded. -/
def isReturnInst (i : Instruction) : Bool :=
  match i.kind with
  | .ret => true
  | _ => false

/-! ## `rename_bbs` (lines 58-77) -/

/-- Modelled from the spec: `BasicBlock::setName` of the host compiler, taken
as the plain assignment of the `name` attribute. -/
def setName (bb : BasicBlock) (n : String) : BasicBlock :=
  { bb with name := n }

/-- The inner loop of `rename_bbs` over the blocks of one function; `first` is
the local flag of the source. -/
def renameBlocks (fname : String) : Bool → List BasicBlock → List BasicBlock
  | _, [] => []
  | first, bb :: rest =>
    if first then
      setName bb (fname ++ "_" ++ "entry") :: renameBlocks fname false rest
    else
      setName bb (fname ++ "_" ++ "bb") :: renameBlocks fname false rest

/-- The body of the outer loop of `rename_bbs` for one function. -/
def renameFunction (func : Function) : Function :=
  if func.isDeclaration = false then
    { func with blocks := renameBlocks func.name true func.blocks }
  else
    func

/-- The function `rename_bbs`: every function of the module in turn. -/
def rename_bbs (M : Program) : Program :=
  M.map renameFunction

/-! ## `findTraceLocations` (lines 79-146) -/

/-- The variables `findTraceLocations` works on: its by-value parameter
`trace_begins`, the four vectors it fills through pointers, and its two local
flags. -/
structure TraceState where
  trace_begins : Nat
  trace_ends : List Nat
  trace_prints : List Nat
  func_returns : List Nat
  func_calls : List Nat
  inserted_first : Bool
  bb_trace_print : Bool
deriving DecidableEq

/-- Lines 98-103: mark where the program execution begins. -/
def markBegin (fname : String) (inst : Instruction) (s : TraceState) : TraceState :=
  if s.inserted_first = false then
    if fname = "main" then
      { s with trace_begins := inst.addr, inserted_first := true }
    else s
  else s

/-- Lines 107-114: track the first instruction of the block that is no phi node. -/
def markPrint (inst : Instruction) (s : TraceState) : TraceState :=
  if !isPHINode inst then
    if s.bb_trace_print = false then
      { s with trace_prints := s.trace_prints ++ [inst.addr], bb_trace_print := true }
    else s
  else s

/-- Lines 117-126: track the return instructions. -/
def markReturn (fname : String) (inst : Instruction) (s : TraceState) : TraceState :=
  match inst.kind with
  | .ret =>
    if fname = "main" then
      { s with trace_ends := s.trace_ends ++ [inst.addr] }
    else
      { s with func_returns := s.func_returns ++ [inst.addr] }
  | _ => s

/-- Lines 128-142: track the calls. -/
def markCall (inst : Instruction) (s : TraceState) : TraceState :=
  match inst.kind with
  | .call (some fn) _ =>
    if fn.name = "exit" then
      { s with trace_ends := s.trace_ends ++ [inst.addr] }
    else if !fn.isDeclaration then
      { s with func_calls := s.func_calls ++ [inst.addr] }
    else s
  | _ => s

/-- The body of the loop over the instructions of a block (lines 97-142). -/
def scanInst (fname : String) (s : TraceState) (inst : Instruction) : TraceState :=
  markCall inst (markReturn fname inst (markPrint inst (markBegin fname inst s)))

/-- The body of the loop over the blocks of a function (lines 93-143):
`bb_trace_print` starts at `false` for every block. -/
def scanBlock (fname : String) (s : TraceState) (bb : BasicBlock) : TraceState :=
  bb.insts.foldl (scanInst fname) { s with bb_trace_print := false }

/-- The body of the loop over the functions of the module (lines 90-144). -/
def scanFunction (s : TraceState) (func : Function) : TraceState :=
  func.blocks.foldl (scanBlock func.name) s

/-- The function `findTraceLocations`.  The argument `trace_begins` is the
value passed by the caller; the four vectors are empty on entry, as they are in
`runOnModule`.  The field `trace_begins` of the result is the final value of the
callee's own copy, which the caller never sees. -/
def findTraceLocations (M : Program) (trace_begins : Nat) : TraceState :=
  M.foldl scanFunction
    { trace_begins := trace_begins, trace_ends := [], trace_prints := [],
      func_returns := [], func_calls := [], inserted_first := false,
      bb_trace_print := false }

/-! ## `printf_prototype`, `geti8StrVal` and the emission of `runOnModule` -/

/-- Modelled from the spec: the sink-declaration capability of the host
compiler, `Module::getOrInsertFunction(name, ...)`, which only adds a
declaration.  When the module has a function of that name it is returned and
the module is unchanged; otherwise a declaration of that name is appended to
the function list and returned.  Types and attributes are not part of the
model. -/
def getOrInsertFunction (M : Program) (name : String) : Callee × Program :=
  match M.find? (fun f => f.name = name) with
  | some f => ({ name := name, isDeclaration := f.isDeclaration }, M)
  | none =>
    ({ name := name, isDeclaration := true },
      M ++ [{ name := name, isDeclaration := true, blocks := [] }])

/-- The function `printf_prototype` (lines 46-56): the handle of `printf` and
the module after the call. -/
def printf_prototype (M : Program) : Callee × Program :=
  getOrInsertFunction M "printf"

/-- The function `geti8StrVal`: the operand that stands for the string
constant.  The global variable it adds to the module is not part of the
model. -/
def geti8StrVal (str : String) : String :=
  str

/-- The characters a C string function reads from `s`: up to the first NUL. -/
def cString (s : List Char) : List Char :=
  s.takeWhile (fun c => c != '\x00')

/-- The C function `strcpy(&buf[off], src)`: the characters of `src` up to its
first NUL, then a NUL, written from index `off` on. -/
def strcpy (buf : List Char) (off : Nat) (src : List Char) : List Char :=
  buf.take off ++ (cString src ++ ['\x00']) ++ buf.drop (off + (cString src).length + 1)

/-- Lines 181-188: the buffer `bbNameString`, allocated with `name.length + 8`
characters, after the three calls of `strcpy`; a write past its end makes the
list longer. -/
def bbNameString (name : String) : List Char :=
  let buf := List.replicate (name.length + 8) '\x00'
  let buf := strcpy buf 0 "\ntrace:".toList
  let buf := strcpy buf 7 name.toList
  strcpy buf (7 + name.length) "\n".toList

/-- The message of a block entry: the C string read from `bbNameString`, up
to its first NUL, which may lie past the allocated characters. -/
def blockMessage (name : String) : String :=
  String.mk (cString (bbNameString name))

/-- Modelled from the spec: the address the host compiler gives to an
instruction object it creates, one that no instruction of the module has. -/
def freshAddr (M : Program) : Nat :=
  (allAddrs M).foldr max 0 + 1

/-- Modelled from the spec: `IRBuilder::CreateCall(printf_func, str)` of the
host compiler, a new call instruction that is in no block yet. -/
def CreateCall (M : Program) (printf_func : Callee) (str : String) : Instruction :=
  { addr := freshAddr M, kind := .call (some printf_func) [str] }

/-- Insertion of `new` in front of the instruction at address `target` in an
instruction list. -/
def insertInList (new : Instruction) (target : Nat) : List Instruction → List Instruction
  | [] => []
  | i :: rest =>
    if i.addr = target then new :: i :: rest
    else i :: insertInList new target rest

/-- Application of `g` to the instruction list of every block. -/
def mapInsts (g : List Instruction → List Instruction) (M : Program) : Program :=
  M.map (fun f => { f with blocks := f.blocks.map (fun b => { b with insts := g b.insts }) })

/-- Modelled from the spec: the mutation primitive of the host compiler,
`new->insertBefore(target)`, which links `new` into the block of `target`,
directly in front of it.  Undefined (`none`) when `target` is not the address
of an instruction of the module. -/
def insertBefore (new : Instruction) (target : Nat) (M : Program) : Option Program :=
  if target ∈ allAddrs M then some (mapInsts (insertInList new target) M) else none

/-- Modelled from the spec: `Instruction::getParent` of the host compiler, the
block that holds the instruction at address `a`. -/
def getParent (M : Program) (a : Nat) : Option BasicBlock :=
  (allBlocks M).find? (fun b => decide (a ∈ blockAddrs b))

/-- One of the four emission loops of `runOnModule`: for every recorded
address in turn, a call of `printf_func` with the message `msg` computes is
inserted in front of it. -/
def emitLoop (printf_func : Callee) (msg : Program → Nat → Option String) :
    List Nat → Program → Option Program
  | [], M => some M
  | t :: ts, M =>
    match msg M t with
    | none => none
    | some str =>
      match insertBefore (CreateCall M printf_func (geti8StrVal str)) t M with
      | none => none
      | some M1 => emitLoop printf_func msg ts M1

/-- Lines 181-188: the message of the block entry print in front of the
instruction at address `t`, built from the name of its parent block. -/
def printMessage (M : Program) (t : Nat) : Option String :=
  (getParent M t).map (fun bb => blockMessage bb.name)

/-- Lines 174-208: the emission.  `trace_begins` is the value of the local
variable of `runOnModule`, `L` holds the four vectors. -/
def emit (printf_func : Callee) (trace_begins : Nat) (L : TraceState) (M : Program) :
    Option Program :=
  (insertBefore (CreateCall M printf_func (geti8StrVal "trace_start\n")) trace_begins M).bind
  fun M1 => (emitLoop printf_func printMessage L.trace_prints M1).bind
  fun M2 => (emitLoop printf_func (fun _ _ => some "\ntrace:return\n") L.func_returns M2).bind
  fun M3 => (emitLoop printf_func (fun _ _ => some "\ntrace:call\n") L.func_calls M3).bind
  fun M4 => emitLoop printf_func (fun _ _ => some "\ntrace_end\n") L.trace_ends M4

/-- The method `Hello::runOnModule`.  `trace_begins` is the indeterminate value
of the uninitialised local variable of that name; the call of
`findTraceLocations` passes it by value and leaves it as it is.  The result is
the module after the pass (the method itself returns `false`). -/
def runOnModule (trace_begins : Nat) (M : Program) : Option Program :=
  let pm := printf_prototype M
  let M1 := rename_bbs pm.2
  let L := findTraceLocations M1 trace_begins
  emit pm.1 trace_begins L M1


/-! ## Notions used to state the properties -/

/-- The earliest instruction of an instruction list that is no phi node. -/
def firstNonPhi (l : List Instruction) : Option Instruction :=
  l.find? (fun i => !isPHINode i)

/-- The address of the earliest instruction that is no phi node, block by block. -/
def entryTargets (M : Program) : List Nat :=
  (allBlocks M).filterMap (fun b => (firstNonPhi b.insts).map (fun i => i.addr))

/-- The instructions of the module in scan order, each with the name of the
function that holds it. -/
def tagged (M : Program) : List (String × Instruction) :=
  M.flatMap (fun f => f.blocks.flatMap (fun b => b.insts.map (fun i => (f.name, i))))

/-- The addresses, in scan order, of the instructions that satisfy `c`. -/
def pointsOf (c : String × Instruction → Bool) (M : Program) : List Nat :=
  ((tagged M).filter c).map (fun p => p.2.addr)

/-- A return of a function named `main`, or a direct call of `exit`. -/
def isEnd (p : String × Instruction) : Bool :=
  match p.2.kind with
  | .ret => decide (p.1 = "main")
  | .call (some fn) _ => decide (fn.name = "exit")
  | _ => false

/-- A return of a function that is not named `main`. -/
def isFuncReturn (p : String × Instruction) : Bool :=
  match p.2.kind with
  | .ret => decide (p.1 ≠ "main")
  | _ => false

/-- A direct call of a defined function that is not named `exit`. -/
def isFuncCall (p : String × Instruction) : Bool :=
  match p.2.kind with
  | .call (some fn) _ => decide (fn.name ≠ "exit") && !fn.isDeclaration
  | _ => false

/-- A field of the state that every scanned instruction extends by its own
address when `c` holds, and leaves alone otherwise. -/
def Accumulates (π : TraceState → List Nat) (c : String × Instruction → Bool) : Prop :=
  (∀ fn s i, π (scanInst fn s i) = π s ++ (if c (fn, i) then [i.addr] else [])) ∧
  (∀ s : TraceState, π { s with bb_trace_print := false } = π s)

/-- The number of blocks that hold at least one instruction. -/
def nonEmptyBlocks (M : Program) : Nat :=
  ((allBlocks M).filter (fun b => !b.insts.isEmpty)).length

/-- The number of blocks that hold at least one instruction that is no phi node. -/
def nonPhiBlocks (M : Program) : Nat :=
  ((allBlocks M).filter (fun b => b.insts.any (fun i => !isPHINode i))).length

/-- The module has exactly one function named `main`, and it holds at least
one instruction. -/
def hasOneMain (M : Program) : Bool :=
  match M.filter (fun f => f.name = "main") with
  | [f] => (f.blocks.flatMap (fun b => b.insts)).length != 0
  | _ => false

/-- A `main` of two blocks: a return, and a block of a single phi node. -/
def progPhiOnly : Program :=
  [{ name := "main", isDeclaration := false,
     blocks := [{ name := "a", insts := [{ addr := 1, kind := .ret }] },
                { name := "b", insts := [{ addr := 2, kind := .phi }] }] }]


/-- The instruction is a call of a function named `printf`, the trace sink. -/
def isSinkCall (i : Instruction) : Bool :=
  match i.kind with
  | .call (some fn) _ => decide (fn.name = "printf")
  | _ => false

/-- The number of sink calls in an instruction list. -/
def sinkCalls (l : List Instruction) : Nat :=
  l.countP isSinkCall

/-- All phi nodes of the instruction list come before every other instruction. -/
def phiFirst : List Instruction → Bool
  | [] => true
  | i :: rest => if isPHINode i then phiFirst rest else rest.all (fun j => !isPHINode j)

/-- The number of entries of `ts` that are addresses of instructions of `b`. -/
def targetsIn (ts : List Nat) (b : BasicBlock) : Nat :=
  ts.countP (fun t => decide (t ∈ blockAddrs b))

/-- Functions correspond one to one, with the same name and declaration flag,
and so do their blocks, each pair of blocks being related by `R`. -/
def ProgRel (R : BasicBlock → BasicBlock → Prop) (M M1 : Program) : Prop :=
  List.Forall₂ (fun f f1 => f1.name = f.name ∧ f1.isDeclaration = f.isDeclaration ∧
    List.Forall₂ R f.blocks f1.blocks) M M1

/-- The block `b1` has the name of `b`, and its instructions with an address
of `A` are the instructions of `b`, in the same order. -/
def Core (A : List Nat) (b b1 : BasicBlock) : Prop :=
  b1.name = b.name ∧ b1.insts.filter (fun i => decide (i.addr ∈ A)) = b.insts

/-- The block `b1` is the block `b` after sink calls have been inserted for
the pairs `done` of a target address and a message; `A` holds the addresses of
the instructions the module had before the insertions. -/
def Instrumented (A : List Nat) (done : List (Nat × String)) (b b1 : BasicBlock) : Prop :=
  Core A b b1 ∧
  b1.insts.length = b.insts.length + targetsIn (done.map Prod.fst) b ∧
  sinkCalls b1.insts = sinkCalls b.insts + targetsIn (done.map Prod.fst) b ∧
  (∀ i ∈ b1.insts, i.addr ∉ A → isSinkCall i = true) ∧
  (phiFirst b.insts = true →
    (∀ t ∈ done.map Prod.fst, ∀ i ∈ b.insts, i.addr = t → isPHINode i = false) →
    phiFirst b1.insts = true)

/-- The family `R` of block relations, indexed by the insertions made so far,
is kept by one more insertion of a call of `printf_func` with a fresh address
in front of an address of `A`. -/
def StepClosed (A : List Nat) (printf_func : Callee)
    (R : List (Nat × String) → BasicBlock → BasicBlock → Prop) : Prop :=
  ∀ done t str new b b1, t ∈ A → new.addr ∉ A →
    new.kind = InstKind.call (some printf_func) [str] → R done b b1 →
    R (done ++ [(t, str)]) b { b1 with insts := insertInList new t b1.insts }

/-- The state of the emission: every address of `A` is still the address of an
instruction of `M1`, and the blocks of `M1` are related to those of `M` by `R`. -/
def Inv (A : List Nat) (R : BasicBlock → BasicBlock → Prop) (M M1 : Program) : Prop :=
  (∀ a ∈ A, a ∈ allAddrs M1) ∧ ProgRel R M M1

/-- The message of the block entry print for the target `t`: built from the
name of the block of `M` that holds `t`. -/
def entryMessage (M : Program) (t : Nat) : String :=
  (printMessage M t).getD ""

/-- The insertions of `runOnModule` in the order it makes them: target address
and message. -/
def insertions (M : Program) (trace_begins : Nat) (L : TraceState) : List (Nat × String) :=
  (trace_begins, "trace_start\n") ::
    (L.trace_prints.map (fun t => (t, entryMessage M t)) ++
      (L.func_returns.map (fun t => (t, "\ntrace:return\n")) ++
        (L.func_calls.map (fun t => (t, "\ntrace:call\n")) ++
          L.trace_ends.map (fun t => (t, "\ntrace_end\n")))))


/-- The declaration of `printf` that `printf_prototype` adds to a module that
has no function of that name. -/
def printfDecl : Function :=
  { name := "printf", isDeclaration := true, blocks := [] }

/-- The four vectors of `findTraceLocations` one after the other, in the order
in which `runOnModule` walks through them. -/
def located (L : TraceState) : List Nat :=
  L.trace_prints ++ (L.func_returns ++ (L.func_calls ++ L.trace_ends))

/-- The block `b1` is the block `b` with one new sink call for every entry of
`ts` that is the address of an instruction of `b`: the instructions of `b1`
with an address of `A` are those of `b` in the same order, every other
instruction of `b1` is a sink call, `b1` is longer than `b` by the number of
such entries, and `b1` has the instructions of `b` when there is no such
entry. -/
def Grown (A : List Nat) (ts : List Nat) (b b1 : BasicBlock) : Prop :=
  b1.insts.filter (fun i => decide (i.addr ∈ A)) = b.insts ∧
  (∀ i ∈ b1.insts, i.addr ∉ A → isSinkCall i = true) ∧
  b1.insts.length = b.insts.length + targetsIn ts b ∧
  (targetsIn ts b = 0 → b1.insts = b.insts)

/-- The blocks `bs1` are the blocks `bs` of a function named `fname` after the
renaming: the first is named `fname_entry`, every later one `fname_bb`, and
each has the instructions it had. -/
def Renamed (fname : String) : List BasicBlock → List BasicBlock → Prop
  | [], [] => True
  | b :: r, b1 :: r1 =>
    b1.name = fname ++ "_entry" ∧ b1.insts = b.insts ∧
    List.Forall₂ (fun c c1 => c1.name = fname ++ "_bb" ∧ c1.insts = c.insts) r r1
  | _, _ => False

/-- Scenario C: a `main` whose single block is two phi nodes and a return. -/
def progPhiStart : Program :=
  [{ name := "main", isDeclaration := false,
     blocks := [{ name := "", insts := [{ addr := 1, kind := .phi }, { addr := 2, kind := .phi },
                                        { addr := 3, kind := .ret }] }] }]

/-- A `main` whose single block is an instruction of no special kind and a return. -/
def progTwo : Program :=
  [{ name := "main", isDeclaration := false,
     blocks := [{ name := "", insts := [{ addr := 1, kind := .other },
                                        { addr := 2, kind := .ret }] }] }]

/-- Scenario B: a `main` whose single block is a return. -/
def progMainRet : Program :=
  [{ name := "main", isDeclaration := false,
     blocks := [{ name := "", insts := [{ addr := 1, kind := .ret }] }] }]

/-- Scenario A: `main` calls the defined function `foo` and returns; `foo`
returns. -/
def progScenarioA : Program :=
  [{ name := "main", isDeclaration := false,
     blocks := [{ name := "", insts := [{ addr := 1, kind := .call (some ⟨"foo", false⟩) [] },
                                        { addr := 2, kind := .ret }] }] },
   { name := "foo", isDeclaration := false,
     blocks := [{ name := "", insts := [{ addr := 3, kind := .ret }] }] }]


/-! ## Notions for the layout of the inserted calls and their messages -/

/-- The kind of a call of `printf_func` with the one argument `str`. -/
def sinkKind (printf_func : Callee) (str : String) : InstKind :=
  InstKind.call (some printf_func) [str]

/-- The messages of the insertions of `done` in front of the address `a`, in
the order in which they were made. -/
def messagesAt (done : List (Nat × String)) (a : Nat) : List String :=
  (done.filter (fun p => decide (p.1 = a))).map Prod.snd

/-- The instruction list `l1` is the list `l` with, directly in front of every
instruction `i` of `l`, a run of instructions that have no address of `A` and
are the sink calls for the insertions of `done` in front of `i`, in the order
of `done`; `l1` holds nothing else. -/
def Laid (A : List Nat) (printf_func : Callee) (done : List (Nat × String)) :
    List Instruction → List Instruction → Prop
  | [], l1 => l1 = []
  | i :: r, l1 =>
    ∃ g rest, l1 = g ++ i :: rest ∧ (∀ x ∈ g, x.addr ∉ A) ∧
      g.map (fun x => x.kind) = (messagesAt done i.addr).map (sinkKind printf_func) ∧
      Laid A printf_func done r rest

/-- The block `b1` is the block `b` with the sink calls of `done` laid out in
front of their targets, when the instructions of `b` have distinct addresses. -/
def LaidOut (A : List Nat) (printf_func : Callee) (done : List (Nat × String))
    (b b1 : BasicBlock) : Prop :=
  Core A b b1 ∧ ((blockAddrs b).Nodup → Laid A printf_func done b.insts b1.insts)

/-- The string holds no NUL character. -/
def noNul (s : String) : Prop :=
  '\x00' ∉ s.toList

/-- The message of the start insertion when it is made in front of `a`. -/
def startMessages (trace_begins a : Nat) : List String :=
  if trace_begins = a then ["trace_start\n"] else []

/-- The messages of the return, call and end loops for the address `a`, in the
order of the loops. -/
def tailMessages (L : TraceState) (a : Nat) : List String :=
  List.replicate (L.func_returns.count a) "\ntrace:return\n" ++
    (List.replicate (L.func_calls.count a) "\ntrace:call\n" ++
      List.replicate (L.trace_ends.count a) "\ntrace_end\n")

/-- The message of the loop, among the return, call and end loops, whose
vector holds the address `a`. -/
def categoryMessage (L : TraceState) (a : Nat) : String :=
  if a ∈ L.func_returns then "\ntrace:return\n"
  else if a ∈ L.func_calls then "\ntrace:call\n"
  else "\ntrace_end\n"

/-- Every function name and every block name of the module holds no NUL
character. -/
def namesNoNul (M : Program) : Prop :=
  ∀ f ∈ M, noNul f.name ∧ ∀ b ∈ f.blocks, noNul b.name

/-- The indices of the buffer that `strcpy(&buf[off], src)` writes: one for
every character of `src` up to its first NUL, and one for the NUL. -/
def strcpyWrites (off : Nat) (src : List Char) : List Nat :=
  List.range' off ((cString src).length + 1)

/-- Lines 183-188: the indices of `bbNameString` written by the three calls of
`strcpy`. -/
def bbNameWrites (name : String) : List Nat :=
  strcpyWrites 0 "\ntrace:".toList ++
    (strcpyWrites 7 name.toList ++ strcpyWrites (7 + name.length) "\n".toList)


theorem markBegin_lists (fn : String) (i : Instruction) (s : TraceState) :
    (markBegin fn i s).trace_ends = s.trace_ends ∧
    (markBegin fn i s).trace_prints = s.trace_prints ∧
    (markBegin fn i s).func_returns = s.func_returns ∧
    (markBegin fn i s).func_calls = s.func_calls ∧
    (markBegin fn i s).bb_trace_print = s.bb_trace_print := by
  unfold markBegin
  split_ifs <;> simp

theorem markPrint_fields (i : Instruction) (s : TraceState) :
    (markPrint i s).trace_ends = s.trace_ends ∧
    (markPrint i s).func_returns = s.func_returns ∧
    (markPrint i s).func_calls = s.func_calls ∧
    (markPrint i s).trace_begins = s.trace_begins ∧
    (markPrint i s).inserted_first = s.inserted_first ∧
    (markPrint i s).trace_prints =
      s.trace_prints ++ (if (!isPHINode i && !s.bb_trace_print) then [i.addr] else []) ∧
    (markPrint i s).bb_trace_print = (s.bb_trace_print || !isPHINode i) := by
  unfold markPrint
  split_ifs <;> simp_all

theorem markReturn_fields (fn : String) (i : Instruction) (s : TraceState) :
    (markReturn fn i s).trace_prints = s.trace_prints ∧
    (markReturn fn i s).func_calls = s.func_calls ∧
    (markReturn fn i s).trace_begins = s.trace_begins ∧
    (markReturn fn i s).inserted_first = s.inserted_first ∧
    (markReturn fn i s).bb_trace_print = s.bb_trace_print ∧
    (markReturn fn i s).trace_ends =
      s.trace_ends ++ (if isReturnInst i && decide (fn = "main") then [i.addr] else []) ∧
    (markReturn fn i s).func_returns =
      s.func_returns ++ (if isFuncReturn (fn, i) then [i.addr] else []) := by
  unfold markReturn isReturnInst isFuncReturn
  split
  · split_ifs <;> simp_all
  · split <;> simp_all

theorem markCall_fields (i : Instruction) (s : TraceState) :
    (markCall i s).trace_prints = s.trace_prints ∧
    (markCall i s).func_returns = s.func_returns ∧
    (markCall i s).trace_begins = s.trace_begins ∧
    (markCall i s).inserted_first = s.inserted_first ∧
    (markCall i s).bb_trace_print = s.bb_trace_print ∧
    (markCall i s).trace_ends =
      s.trace_ends ++ (if isEnd ("", i) && !isReturnInst i then [i.addr] else []) ∧
    (markCall i s).func_calls =
      s.func_calls ++ (if isFuncCall ("", i) then [i.addr] else []) := by
  rcases i with ⟨a, k⟩
  cases k with
  | call c args =>
    cases c with
    | none => simp [markCall, isEnd, isFuncCall, isReturnInst]
    | some fn =>
      simp only [markCall, isEnd, isFuncCall, isReturnInst]
      split_ifs <;> simp_all
  | phi => simp [markCall, isEnd, isFuncCall, isReturnInst]
  | ret => simp [markCall, isEnd, isFuncCall, isReturnInst]
  | other => simp [markCall, isEnd, isFuncCall, isReturnInst]

theorem scanInst_trace_ends (fn : String) (s : TraceState) (i : Instruction) :
    (scanInst fn s i).trace_ends = s.trace_ends ++ (if isEnd (fn, i) then [i.addr] else []) := by
  unfold scanInst
  rw [(markCall_fields _ _).2.2.2.2.2.1, (markReturn_fields _ _ _).2.2.2.2.2.1,
    (markPrint_fields _ _).1, (markBegin_lists _ _ _).1]
  rcases i with ⟨a, k⟩
  cases k with
  | call c args => cases c <;> simp [isEnd, isReturnInst]
  | phi => simp [isEnd, isReturnInst]
  | ret => simp [isEnd, isReturnInst]
  | other => simp [isEnd, isReturnInst]

theorem scanInst_func_returns (fn : String) (s : TraceState) (i : Instruction) :
    (scanInst fn s i).func_returns =
      s.func_returns ++ (if isFuncReturn (fn, i) then [i.addr] else []) := by
  unfold scanInst
  rw [(markCall_fields _ _).2.1, (markReturn_fields _ _ _).2.2.2.2.2.2,
    (markPrint_fields _ _).2.1, (markBegin_lists _ _ _).2.2.1]

theorem scanInst_func_calls (fn : String) (s : TraceState) (i : Instruction) :
    (scanInst fn s i).func_calls = s.func_calls ++ (if isFuncCall (fn, i) then [i.addr] else []) := by
  unfold scanInst
  rw [(markCall_fields _ _).2.2.2.2.2.2, (markReturn_fields _ _ _).2.1,
    (markPrint_fields _ _).2.2.1, (markBegin_lists _ _ _).2.2.2.1]
  rfl

theorem scanInst_trace_prints (fn : String) (s : TraceState) (i : Instruction) :
    (scanInst fn s i).trace_prints =
      s.trace_prints ++ (if (!isPHINode i && !s.bb_trace_print) then [i.addr] else []) := by
  unfold scanInst
  rw [(markCall_fields _ _).1, (markReturn_fields _ _ _).1,
    (markPrint_fields _ _).2.2.2.2.2.1, (markBegin_lists _ _ _).2.1, (markBegin_lists _ _ _).2.2.2.2]

theorem scanInst_bb_trace_print (fn : String) (s : TraceState) (i : Instruction) :
    (scanInst fn s i).bb_trace_print = (s.bb_trace_print || !isPHINode i) := by
  unfold scanInst
  rw [(markCall_fields _ _).2.2.2.2.1, (markReturn_fields _ _ _).2.2.2.2.1,
    (markPrint_fields _ _).2.2.2.2.2.2, (markBegin_lists _ _ _).2.2.2.2]


theorem foldl_scanInst_acc {π : TraceState → List Nat} {c : String × Instruction → Bool}
    (h : Accumulates π c) (fn : String) (l : List Instruction) (s : TraceState) :
    π (l.foldl (scanInst fn) s) =
      π s ++ ((l.map (fun i => (fn, i))).filter c).map (fun p => p.2.addr) := by
  induction l generalizing s with
  | nil => simp
  | cons i r ih =>
    rw [List.foldl_cons, ih, h.1]
    by_cases hc : c (fn, i) = true <;> simp [hc]

theorem foldl_scanBlock_acc {π : TraceState → List Nat} {c : String × Instruction → Bool}
    (h : Accumulates π c) (fn : String) (bs : List BasicBlock) (s : TraceState) :
    π (bs.foldl (scanBlock fn) s) =
      π s ++ ((bs.flatMap (fun b => b.insts.map (fun i => (fn, i)))).filter c).map
        (fun p => p.2.addr) := by
  induction bs generalizing s with
  | nil => simp
  | cons b r ih =>
    rw [List.foldl_cons, ih]
    unfold scanBlock
    rw [foldl_scanInst_acc h, h.2]
    simp

theorem foldl_scanFunction_acc {π : TraceState → List Nat} {c : String × Instruction → Bool}
    (h : Accumulates π c) (M : Program) (s : TraceState) :
    π (M.foldl scanFunction s) = π s ++ pointsOf c M := by
  induction M generalizing s with
  | nil => simp [pointsOf, tagged]
  | cons f r ih =>
    rw [List.foldl_cons, ih]
    unfold scanFunction
    rw [foldl_scanBlock_acc h]
    simp [pointsOf, tagged]

theorem trace_ends_eq (M : Program) (tb : Nat) :
    (findTraceLocations M tb).trace_ends = pointsOf isEnd M := by
  have h : Accumulates (fun s => s.trace_ends) isEnd :=
    ⟨fun fn s i => scanInst_trace_ends fn s i, fun _ => rfl⟩
  simpa [findTraceLocations] using foldl_scanFunction_acc h M _

theorem func_returns_eq (M : Program) (tb : Nat) :
    (findTraceLocations M tb).func_returns = pointsOf isFuncReturn M := by
  have h : Accumulates (fun s => s.func_returns) isFuncReturn :=
    ⟨fun fn s i => scanInst_func_returns fn s i, fun _ => rfl⟩
  simpa [findTraceLocations] using foldl_scanFunction_acc h M _

theorem func_calls_eq (M : Program) (tb : Nat) :
    (findTraceLocations M tb).func_calls = pointsOf isFuncCall M := by
  have h : Accumulates (fun s => s.func_calls) isFuncCall :=
    ⟨fun fn s i => scanInst_func_calls fn s i, fun _ => rfl⟩
  simpa [findTraceLocations] using foldl_scanFunction_acc h M _

theorem foldl_scanInst_prints (fn : String) (l : List Instruction) (s : TraceState) :
    (l.foldl (scanInst fn) s).trace_prints =
      s.trace_prints ++
        (if s.bb_trace_print then [] else ((firstNonPhi l).map (fun i => i.addr)).toList) := by
  induction l generalizing s with
  | nil => simp [firstNonPhi]
  | cons i r ih =>
    rw [List.foldl_cons, ih, scanInst_trace_prints, scanInst_bb_trace_print]
    cases hb : s.bb_trace_print <;> cases hp : isPHINode i <;> simp [firstNonPhi, hp]

theorem foldl_scanBlock_prints (fn : String) (bs : List BasicBlock) (s : TraceState) :
    (bs.foldl (scanBlock fn) s).trace_prints =
      s.trace_prints ++ bs.filterMap (fun b => (firstNonPhi b.insts).map (fun i => i.addr)) := by
  induction bs generalizing s with
  | nil => simp
  | cons b r ih =>
    rw [List.foldl_cons, ih]
    unfold scanBlock
    rw [foldl_scanInst_prints]
    cases h : firstNonPhi b.insts <;> simp [List.filterMap_cons, h]

theorem trace_prints_eq (M : Program) (tb : Nat) :
    (findTraceLocations M tb).trace_prints = entryTargets M := by
  have h : ∀ (N : Program) (s : TraceState),
      (N.foldl scanFunction s).trace_prints = s.trace_prints ++ entryTargets N := by
    intro N
    induction N with
    | nil => intro s; simp [entryTargets, allBlocks]
    | cons f r ih =>
      intro s
      rw [List.foldl_cons, ih]
      unfold scanFunction
      rw [foldl_scanBlock_prints]
      simp [entryTargets, allBlocks, List.filterMap_append]
  simpa [findTraceLocations] using h M _


theorem mem_tagged {M : Program} {p : String × Instruction} :
    p ∈ tagged M ↔ ∃ f ∈ M, ∃ b ∈ f.blocks, ∃ i ∈ b.insts, p = (f.name, i) := by
  simp only [tagged, List.mem_flatMap, List.mem_map]
  constructor
  · rintro ⟨f, hf, b, hb, i, hi, rfl⟩
    exact ⟨f, hf, b, hb, i, hi, rfl⟩
  · rintro ⟨f, hf, b, hb, i, hi, rfl⟩
    exact ⟨f, hf, b, hb, i, hi, rfl⟩

theorem tagged_addrs (M : Program) : (tagged M).map (fun p => p.2.addr) = allAddrs M := by
  simp only [tagged, allAddrs, allInsts, allBlocks, List.map_flatMap, List.flatMap_assoc,
    List.map_map]
  rfl

theorem mem_allInsts {M : Program} {i : Instruction} :
    i ∈ allInsts M ↔ ∃ b ∈ allBlocks M, i ∈ b.insts := by
  simp [allInsts]

theorem mem_allBlocks {M : Program} {b : BasicBlock} :
    b ∈ allBlocks M ↔ ∃ f ∈ M, b ∈ f.blocks := by
  simp [allBlocks]

/-- Two tagged instructions of a module with the same address are the same
when addresses are not shared. -/
theorem tagged_inj {M : Program} (hM : (allAddrs M).Nodup) {p q : String × Instruction}
    (hp : p ∈ tagged M) (hq : q ∈ tagged M) (h : p.2.addr = q.2.addr) : p = q := by
  rw [← tagged_addrs] at hM
  exact List.inj_on_of_nodup_map hM hp hq h

theorem allInsts_inj {M : Program} (hM : (allAddrs M).Nodup) {i j : Instruction}
    (hi : i ∈ allInsts M) (hj : j ∈ allInsts M) (h : i.addr = j.addr) : i = j :=
  List.inj_on_of_nodup_map hM hi hj h

theorem mem_pointsOf {c : String × Instruction → Bool} {M : Program} {a : Nat} :
    a ∈ pointsOf c M ↔ ∃ p ∈ tagged M, c p = true ∧ p.2.addr = a := by
  simp [pointsOf, and_assoc]

theorem pointsOf_nodup (c : String × Instruction → Bool) {M : Program}
    (hM : (allAddrs M).Nodup) : (pointsOf c M).Nodup := by
  rw [← tagged_addrs] at hM
  exact (List.filter_sublist _).map _ |>.nodup hM

theorem pointsOf_sublist (c : String × Instruction → Bool) (M : Program) :
    (pointsOf c M).Sublist (allAddrs M) := by
  rw [← tagged_addrs]
  exact (List.filter_sublist _).map _

/-- In a module whose addresses are not shared, the address of a tagged
instruction is among the points of `c` exactly when `c` holds of it. -/
theorem addr_mem_pointsOf {c : String × Instruction → Bool} {M : Program}
    (hM : (allAddrs M).Nodup) {p : String × Instruction} (hp : p ∈ tagged M) :
    p.2.addr ∈ pointsOf c M ↔ c p = true := by
  rw [mem_pointsOf]
  constructor
  · rintro ⟨q, hq, hc, hqa⟩
    rwa [← tagged_inj hM hq hp hqa]
  · intro hc
    exact ⟨p, hp, hc, rfl⟩

theorem count_pointsOf {c : String × Instruction → Bool} {M : Program}
    (hM : (allAddrs M).Nodup) {p : String × Instruction} (hp : p ∈ tagged M)
    (hc : c p = true) : (pointsOf c M).count p.2.addr = 1 :=
  List.count_eq_one_of_mem (pointsOf_nodup c hM) ((addr_mem_pointsOf hM hp).2 hc)

theorem entry_mem_block {l : List BasicBlock} {a : Nat}
    (h : a ∈ l.filterMap (fun b => (firstNonPhi b.insts).map (fun i => i.addr))) :
    ∃ b ∈ l, ∃ j, firstNonPhi b.insts = some j ∧ j.addr = a := by
  simp only [List.mem_filterMap, Option.map_eq_some'] at h
  exact h

theorem firstNonPhi_mem {l : List Instruction} {j : Instruction} (h : firstNonPhi l = some j) :
    j ∈ l ∧ isPHINode j = false := by
  have hj : (!isPHINode j) = true := List.find?_some (p := fun i => !isPHINode i) h
  exact ⟨List.mem_of_find?_eq_some h, by simpa using hj⟩

theorem allAddrs_split {M : Program} {l₁ l₂ : List BasicBlock} {b : BasicBlock}
    (h : allBlocks M = l₁ ++ b :: l₂) :
    allAddrs M = (l₁.flatMap (fun b => b.insts)).map (fun i => i.addr) ++
      (blockAddrs b ++ (l₂.flatMap (fun b => b.insts)).map (fun i => i.addr)) := by
  simp [allAddrs, allInsts, h, blockAddrs]

/-- In a module whose addresses are not shared, the block entry points that lie
in a block are the address of its earliest instruction that is no phi node. -/
theorem entryTargets_filter {M : Program} (hM : (allAddrs M).Nodup) {b : BasicBlock}
    (hb : b ∈ allBlocks M) :
    (entryTargets M).filter (fun a => decide (a ∈ blockAddrs b)) =
      ((firstNonPhi b.insts).map (fun i => i.addr)).toList := by
  obtain ⟨l₁, l₂, hl⟩ := List.mem_iff_append.1 hb
  have hsplit := allAddrs_split hl
  rw [hsplit] at hM
  have hd1 := (List.nodup_append.1 hM).2.2
  have hd2 := (List.nodup_append.1 (List.nodup_append.1 hM).2.1).2.2
  have hout : ∀ l : List BasicBlock,
      (∀ a, a ∈ (l.flatMap (fun b => b.insts)).map (fun i => i.addr) → a ∉ blockAddrs b) →
      (l.filterMap (fun b => (firstNonPhi b.insts).map (fun i => i.addr))).filter
        (fun a => decide (a ∈ blockAddrs b)) = [] := by
    intro l hdis
    rw [List.filter_eq_nil_iff]
    intro a ha
    obtain ⟨c, hc, j, hj, rfl⟩ := entry_mem_block ha
    have : j.addr ∈ (l.flatMap (fun b => b.insts)).map (fun i => i.addr) :=
      List.mem_map.2 ⟨j, List.mem_flatMap.2 ⟨c, hc, (firstNonPhi_mem hj).1⟩, rfl⟩
    simpa using hdis _ this
  have h1 := hout l₁ (fun a ha hab => hd1 ha (List.mem_append_left _ hab))
  have h2 := hout l₂ (fun a ha hab => hd2 hab ha)
  rw [entryTargets, hl, List.filterMap_append, List.filterMap_cons]
  cases hf : firstNonPhi b.insts with
  | none => simp [h1, h2]
  | some j =>
    have hj : j.addr ∈ blockAddrs b := List.mem_map.2 ⟨j, (firstNonPhi_mem hf).1, rfl⟩
    simp [h1, h2, hj]


/-! ## The emission of `runOnModule` -/

/-! ### Insertion into an instruction list -/

theorem insertInList_filter {A : List Nat} {new : Instruction} (hn : new.addr ∉ A) (t : Nat)
    (l : List Instruction) :
    (insertInList new t l).filter (fun i => decide (i.addr ∈ A)) =
      l.filter (fun i => decide (i.addr ∈ A)) := by
  induction l with
  | nil => rfl
  | cons i r ih =>
    unfold insertInList
    split_ifs with h
    · simp [List.filter_cons, hn]
    · simp only [List.filter_cons, ih]

theorem insertInList_length (new : Instruction) (t : Nat) (l : List Instruction) :
    (insertInList new t l).length =
      l.length + (if t ∈ l.map (fun i => i.addr) then 1 else 0) := by
  induction l with
  | nil => rfl
  | cons i r ih =>
    unfold insertInList
    split_ifs with h h1 h1
    · simp
    · exact absurd (by simp [h]) h1
    · simp only [List.length_cons, ih]
      rcases List.mem_cons.1 h1 with h2 | h2
      · exact absurd h2.symm h
      · simp [h2]
    · simp only [List.length_cons, ih]
      have : t ∉ r.map (fun i => i.addr) := fun h2 => h1 (List.mem_cons_of_mem _ h2)
      simp [this]

theorem insertInList_countP (p : Instruction → Bool) {new : Instruction} (hp : p new = true)
    (t : Nat) (l : List Instruction) :
    (insertInList new t l).countP p =
      l.countP p + (if t ∈ l.map (fun i => i.addr) then 1 else 0) := by
  induction l with
  | nil => rfl
  | cons i r ih =>
    unfold insertInList
    split_ifs with h h1 h1
    · simp [List.countP_cons, hp]
    · exact absurd (by simp [h]) h1
    · simp only [List.countP_cons, ih]
      rcases List.mem_cons.1 h1 with h2 | h2
      · exact absurd h2.symm h
      · simp [h2]; omega
    · simp only [List.countP_cons, ih]
      have : t ∉ r.map (fun i => i.addr) := fun h2 => h1 (List.mem_cons_of_mem _ h2)
      simp [this]

theorem insertInList_mem {new : Instruction} {t : Nat} {l : List Instruction} {i : Instruction}
    (h : i ∈ l) : i ∈ insertInList new t l := by
  induction l with
  | nil => exact absurd h (List.not_mem_nil _)
  | cons j r ih =>
    unfold insertInList
    split_ifs with hj
    · exact List.mem_cons_of_mem _ h
    · rcases List.mem_cons.1 h with rfl | h1
      · exact List.mem_cons_self _ _
      · exact List.mem_cons_of_mem _ (ih h1)

theorem insertInList_mem_cases {new : Instruction} {t : Nat} {l : List Instruction}
    {i : Instruction} (h : i ∈ insertInList new t l) : i = new ∨ i ∈ l := by
  induction l with
  | nil => exact absurd h (List.not_mem_nil _)
  | cons j r ih =>
    unfold insertInList at h
    split_ifs at h with hj
    · rcases List.mem_cons.1 h with rfl | h1
      · exact Or.inl rfl
      · exact Or.inr h1
    · rcases List.mem_cons.1 h with rfl | h1
      · exact Or.inr (List.mem_cons_self _ _)
      · rcases ih h1 with h2 | h2
        · exact Or.inl h2
        · exact Or.inr (List.mem_cons_of_mem _ h2)

theorem insertInList_all {new : Instruction} (hn : isPHINode new = false) (t : Nat)
    (l : List Instruction) (h : l.all (fun j => !isPHINode j) = true) :
    (insertInList new t l).all (fun j => !isPHINode j) = true := by
  induction l with
  | nil => rfl
  | cons i r ih =>
    simp only [List.all_cons, Bool.and_eq_true] at h
    unfold insertInList
    split_ifs with hi
    · simp only [List.all_cons, Bool.and_eq_true]
      exact ⟨by simp [hn], h.1, h.2⟩
    · simp only [List.all_cons, Bool.and_eq_true]
      exact ⟨h.1, ih h.2⟩

theorem insertInList_phiFirst {new : Instruction} (hn : isPHINode new = false) (t : Nat)
    (l : List Instruction) (h : phiFirst l = true)
    (ht : ∀ i ∈ l, i.addr = t → isPHINode i = false) :
    phiFirst (insertInList new t l) = true := by
  induction l with
  | nil => rfl
  | cons i r ih =>
    unfold insertInList
    split_ifs with hi
    · have hip := ht i (List.mem_cons_self _ _) hi
      simp only [phiFirst, hip, hn] at h ⊢
      simpa [hip] using h
    · cases hp : isPHINode i with
      | true =>
        simp only [phiFirst, hp, if_true] at h ⊢
        exact ih h (fun j hj => ht j (List.mem_cons_of_mem _ hj))
      | false =>
        simp only [phiFirst, hp] at h ⊢
        exact insertInList_all hn t r (by simpa using h)


/-! ### Insertion into a module -/

theorem freshAddr_gt (M : Program) : ∀ a ∈ allAddrs M, a < freshAddr M := by
  unfold freshAddr
  generalize allAddrs M = l
  induction l with
  | nil => intro a ha; exact absurd ha (List.not_mem_nil _)
  | cons x r ih =>
    intro a ha
    rcases List.mem_cons.1 ha with rfl | h
    · simp only [List.foldr_cons]; omega
    · have := ih a h
      simp only [List.foldr_cons]; omega

theorem freshAddr_not_mem (M : Program) : freshAddr M ∉ allAddrs M :=
  fun h => Nat.lt_irrefl _ (freshAddr_gt M _ h)

theorem mem_allAddrs {M : Program} {a : Nat} :
    a ∈ allAddrs M ↔ ∃ f ∈ M, ∃ b ∈ f.blocks, ∃ i ∈ b.insts, i.addr = a := by
  simp only [allAddrs, allInsts, allBlocks, List.mem_map, List.mem_flatMap]
  constructor
  · rintro ⟨i, ⟨b, ⟨f, hf, hb⟩, hi⟩, rfl⟩
    exact ⟨f, hf, b, hb, i, hi, rfl⟩
  · rintro ⟨f, hf, b, hb, i, hi, rfl⟩
    exact ⟨i, ⟨b, ⟨f, hf, hb⟩, hi⟩, rfl⟩

theorem mapInsts_insert_mem {new : Instruction} {t : Nat} {M : Program} {a : Nat}
    (h : a ∈ allAddrs M) : a ∈ allAddrs (mapInsts (insertInList new t) M) := by
  obtain ⟨f, hf, b, hb, i, hi, rfl⟩ := mem_allAddrs.1 h
  have hf1 : _ ∈ mapInsts (insertInList new t) M := List.mem_map_of_mem _ hf
  have hb1 := List.mem_map_of_mem
    (fun b : BasicBlock => { b with insts := insertInList new t b.insts }) hb
  exact mem_allAddrs.2 ⟨_, hf1, _, hb1, i, insertInList_mem hi, rfl⟩

theorem progRel_refl {R : BasicBlock → BasicBlock → Prop} {M : Program}
    (h : ∀ b ∈ allBlocks M, R b b) : ProgRel R M M := by
  unfold ProgRel
  rw [List.forall₂_same]
  intro f hf
  refine ⟨rfl, rfl, ?_⟩
  rw [List.forall₂_same]
  exact fun b hb => h b (mem_allBlocks.2 ⟨f, hf, hb⟩)

theorem progRel_mapInsts {R S : BasicBlock → BasicBlock → Prop} {M M1 : Program}
    {g : List Instruction → List Instruction} (h : ProgRel R M M1)
    (hg : ∀ b b1, R b b1 → S b { b1 with insts := g b1.insts }) :
    ProgRel S M (mapInsts g M1) := by
  unfold ProgRel mapInsts at *
  rw [List.forall₂_map_right_iff]
  refine h.imp ?_
  rintro f f1 ⟨hn, hd, hb⟩
  refine ⟨hn, hd, ?_⟩
  simp only
  rw [List.forall₂_map_right_iff]
  exact hb.imp hg

theorem forall₂_comp {α : Type} {R S T : α → α → Prop} (hT : ∀ a b c, R a b → S b c → T a c) :
    ∀ {l l1 l2 : List α}, List.Forall₂ R l l1 → List.Forall₂ S l1 l2 → List.Forall₂ T l l2
  | _, _, _, List.Forall₂.nil, List.Forall₂.nil => List.Forall₂.nil
  | _, _, _, List.Forall₂.cons h t, List.Forall₂.cons h1 t1 =>
    List.Forall₂.cons (hT _ _ _ h h1) (forall₂_comp hT t t1)

theorem progRel_comp {R S T : BasicBlock → BasicBlock → Prop} {M M1 M2 : Program}
    (h : ProgRel R M M1) (h1 : ProgRel S M1 M2) (hT : ∀ a b c, R a b → S b c → T a c) :
    ProgRel T M M2 := by
  unfold ProgRel at *
  refine forall₂_comp ?_ h h1
  rintro f f1 f2 ⟨hn, hd, hb⟩ ⟨hn1, hd1, hb1⟩
  exact ⟨hn1.trans hn, hd1.trans hd, forall₂_comp hT hb hb1⟩

theorem progRel_mono {R S : BasicBlock → BasicBlock → Prop} {M M1 : Program}
    (h : ProgRel R M M1) (hS : ∀ a b, R a b → S a b) : ProgRel S M M1 := by
  unfold ProgRel at *
  refine h.imp ?_
  rintro f f1 ⟨hn, hd, hb⟩
  exact ⟨hn, hd, hb.imp hS⟩


/-! ### One insertion -/

theorem core_mem_iff {A : List Nat} {b b1 : BasicBlock} (h : Core A b b1) {t : Nat}
    (ht : t ∈ A) : t ∈ blockAddrs b1 ↔ t ∈ blockAddrs b := by
  unfold blockAddrs
  rw [← h.2]
  simp only [List.mem_map, List.mem_filter, decide_eq_true_eq]
  constructor
  · rintro ⟨i, hi, rfl⟩
    exact ⟨i, ⟨hi, ht⟩, rfl⟩
  · rintro ⟨i, ⟨hi, _⟩, rfl⟩
    exact ⟨i, hi, rfl⟩

theorem core_step {A : List Nat} {b b1 : BasicBlock} (h : Core A b b1) {new : Instruction}
    (hn : new.addr ∉ A) (t : Nat) :
    Core A b { b1 with insts := insertInList new t b1.insts } :=
  ⟨h.1, by rw [← h.2]; exact insertInList_filter hn t b1.insts⟩

theorem targetsIn_snoc (done : List (Nat × String)) (t : Nat) (str : String) (b : BasicBlock) :
    targetsIn ((done ++ [(t, str)]).map Prod.fst) b =
      targetsIn (done.map Prod.fst) b + (if t ∈ blockAddrs b then 1 else 0) := by
  unfold targetsIn
  rw [List.map_append, List.countP_append]
  by_cases h : t ∈ blockAddrs b <;> simp [List.countP_cons, h]

theorem instrumented_step (A : List Nat) (printf_func : Callee)
    (hpf : printf_func.name = "printf") : StepClosed A printf_func (Instrumented A) := by
  intro done t str new b b1 ht hn hk h
  obtain ⟨hc, hl, hs, hnew, hp⟩ := h
  have hmem : (t ∈ b1.insts.map (fun i => i.addr)) ↔ t ∈ blockAddrs b := core_mem_iff hc ht
  have hsink : isSinkCall new = true := by simp [isSinkCall, hk, hpf]
  have hphi : isPHINode new = false := by simp [isPHINode, hk]
  refine ⟨core_step hc hn t, ?_, ?_, ?_, ?_⟩
  · simp only [insertInList_length, hl, targetsIn_snoc, hmem]
    omega
  · simp only [sinkCalls] at hs ⊢
    simp only [insertInList_countP _ hsink, hs, targetsIn_snoc, hmem]
    omega
  · intro i hi hiA
    rcases insertInList_mem_cases hi with rfl | h1
    · exact hsink
    · exact hnew i h1 hiA
  · intro hb hall
    have hall1 : ∀ u ∈ done.map Prod.fst, ∀ i ∈ b.insts, i.addr = u → isPHINode i = false :=
      fun u hu => hall u (by simp only [List.map_append, List.mem_append]; exact Or.inl hu)
    refine insertInList_phiFirst hphi t b1.insts (hp hb hall1) ?_
    intro i hi hit
    have hib : i ∈ b.insts := by
      rw [← hc.2]
      exact List.mem_filter.2 ⟨hi, by simpa [hit] using ht⟩
    exact hall t (by simp) i hib hit

theorem insertBefore_spec {A : List Nat} {printf_func : Callee}
    {R : List (Nat × String) → BasicBlock → BasicBlock → Prop} (hR : StepClosed A printf_func R)
    {M M1 : Program} {done : List (Nat × String)} (h : Inv A (R done) M M1) {t : Nat}
    (ht : t ∈ A) (str : String) :
    ∃ M2, insertBefore (CreateCall M1 printf_func str) t M1 = some M2 ∧
      Inv A (R (done ++ [(t, str)])) M M2 := by
  have hn : (CreateCall M1 printf_func str).addr ∉ A :=
    fun hc => freshAddr_not_mem M1 (h.1 _ hc)
  refine ⟨mapInsts (insertInList (CreateCall M1 printf_func str) t) M1, ?_, ?_, ?_⟩
  · simp [insertBefore, h.1 t ht]
  · exact fun a ha => mapInsts_insert_mem (h.1 a ha)
  · exact progRel_mapInsts h.2 (fun b b1 hb => hR done t str _ b b1 ht hn rfl hb)

/-! ### The emission loops -/

theorem emitLoop_spec {A : List Nat} {printf_func : Callee}
    {R : List (Nat × String) → BasicBlock → BasicBlock → Prop} (hR : StepClosed A printf_func R)
    {M : Program} (msg : Program → Nat → Option String) (μ : Nat → String)
    (hmsg : ∀ done M1 t, Inv A (R done) M M1 → t ∈ A → msg M1 t = some (μ t)) :
    ∀ (ts : List Nat) (done : List (Nat × String)) (M1 : Program), (∀ t ∈ ts, t ∈ A) →
      Inv A (R done) M M1 →
      ∃ M2, emitLoop printf_func msg ts M1 = some M2 ∧
        Inv A (R (done ++ ts.map (fun t => (t, μ t)))) M M2 := by
  intro ts
  induction ts with
  | nil => intro done M1 _ h; exact ⟨M1, rfl, by simpa using h⟩
  | cons t r ih =>
    intro done M1 hts h
    have ht : t ∈ A := hts t (List.mem_cons_self _ _)
    obtain ⟨M2, h2, hinv⟩ := insertBefore_spec hR h ht (μ t)
    obtain ⟨M3, h3, hinv3⟩ := ih (done ++ [(t, μ t)]) M2
      (fun u hu => hts u (List.mem_cons_of_mem _ hu)) hinv
    refine ⟨M3, ?_, by simpa using hinv3⟩
    simp only [emitLoop, hmsg done M1 t h ht, geti8StrVal, h2, h3]


theorem forall₂_append_rel {α : Type} {R : α → α → Prop} :
    ∀ {l l1 r r1 : List α}, List.Forall₂ R l l1 → List.Forall₂ R r r1 →
      List.Forall₂ R (l ++ r) (l1 ++ r1)
  | _, _, _, _, List.Forall₂.nil, h => h
  | _, _, _, _, List.Forall₂.cons h t, h1 => List.Forall₂.cons h (forall₂_append_rel t h1)

theorem progRel_allBlocks {R : BasicBlock → BasicBlock → Prop} {M M1 : Program}
    (h : ProgRel R M M1) : List.Forall₂ R (allBlocks M) (allBlocks M1) := by
  unfold ProgRel at h
  unfold allBlocks
  induction h with
  | nil => exact List.Forall₂.nil
  | cons hf _ ih =>
    simp only [List.flatMap_cons]
    exact forall₂_append_rel hf.2.2 ih

theorem find?_rel (R : BasicBlock → BasicBlock → Prop) {p p1 : BasicBlock → Bool}
    (hp : ∀ b b1, R b b1 → p b = p1 b1) (hn : ∀ b b1, R b b1 → b1.name = b.name) :
    ∀ {l l1 : List BasicBlock}, List.Forall₂ R l l1 →
      (l1.find? p1).map (fun b => b.name) = (l.find? p).map (fun b => b.name)
  | _, _, List.Forall₂.nil => rfl
  | _, _, List.Forall₂.cons h t => by
    simp only [List.find?_cons, ← hp _ _ h]
    split
    · simp [hn _ _ h]
    · exact find?_rel R hp hn t

theorem getParent_isSome {M : Program} {t : Nat} (ht : t ∈ allAddrs M) :
    ∃ bb, getParent M t = some bb := by
  obtain ⟨f, hf, b, hb, i, hi, rfl⟩ := mem_allAddrs.1 ht
  have : (getParent M i.addr).isSome = true := by
    unfold getParent
    rw [List.find?_isSome]
    exact ⟨b, mem_allBlocks.2 ⟨f, hf, hb⟩, by
      simpa [blockAddrs] using ⟨i, hi, rfl⟩⟩
  exact Option.isSome_iff_exists.1 this

theorem printMessage_stable {A : List Nat} {R : BasicBlock → BasicBlock → Prop}
    (hcore : ∀ b b1, R b b1 → Core A b b1) {M M1 : Program} (h : ProgRel R M M1) {t : Nat}
    (ht : t ∈ A) (htM : t ∈ allAddrs M) : printMessage M1 t = some (entryMessage M t) := by
  have hfind : ((allBlocks M1).find? (fun b => decide (t ∈ blockAddrs b))).map (fun b => b.name) =
      ((allBlocks M).find? (fun b => decide (t ∈ blockAddrs b))).map (fun b => b.name) := by
    refine find?_rel R ?_ (fun b b1 hb => (hcore b b1 hb).1) (progRel_allBlocks h)
    intro b b1 hb
    simp only [core_mem_iff (hcore b b1 hb) ht]
  obtain ⟨bb, hbb⟩ := getParent_isSome htM
  have h1 : printMessage M1 t = printMessage M t := by
    unfold printMessage getParent
    have := congrArg (Option.map blockMessage) hfind
    simpa [Option.map_map, Function.comp] using this
  rw [h1, entryMessage]
  unfold printMessage
  rw [hbb]
  rfl

theorem entryTargets_subset (M : Program) : ∀ t ∈ entryTargets M, t ∈ allAddrs M := by
  intro t ht
  obtain ⟨b, hb, j, hj, rfl⟩ := entry_mem_block ht
  exact List.mem_map_of_mem _ (mem_allInsts.2 ⟨b, hb, (firstNonPhi_mem hj).1⟩)

theorem pointsOf_subset (c : String × Instruction → Bool) (M : Program) :
    ∀ t ∈ pointsOf c M, t ∈ allAddrs M :=
  fun _ ht => (pointsOf_sublist c M).subset ht

/-- The emission of `runOnModule` on a module `M` whose start reference is the
address of one of its instructions: it runs to its end, and every family of
block relations that each insertion keeps holds between `M` and the result,
for the insertions in the order they were made. -/
theorem emit_spec (printf_func : Callee) (M : Program)
    (R : List (Nat × String) → BasicBlock → BasicBlock → Prop)
    (hR : StepClosed (allAddrs M) printf_func R)
    (hcore : ∀ done b b1, R done b b1 → Core (allAddrs M) b b1)
    (h0 : ProgRel (R []) M M) {tb : Nat} (htb : tb ∈ allAddrs M) (tb0 : Nat) :
    ∃ M1, emit printf_func tb (findTraceLocations M tb0) M = some M1 ∧
      ProgRel (R (insertions M tb (findTraceLocations M tb0))) M M1 := by
  have hinv0 : Inv (allAddrs M) (R []) M M := ⟨fun _ ha => ha, h0⟩
  obtain ⟨M1, e1, i1⟩ := insertBefore_spec hR hinv0 htb "trace_start\n"
  obtain ⟨M2, e2, i2⟩ := emitLoop_spec hR printMessage (entryMessage M)
    (fun done N t hN ht => printMessage_stable (hcore done) hN.2 ht ht)
    (findTraceLocations M tb0).trace_prints _ M1
    (by rw [trace_prints_eq]; exact entryTargets_subset M) i1
  obtain ⟨M3, e3, i3⟩ := emitLoop_spec hR (fun _ _ => some "\ntrace:return\n")
    (fun _ => "\ntrace:return\n") (fun _ _ _ _ _ => rfl)
    (findTraceLocations M tb0).func_returns _ M2
    (by rw [func_returns_eq]; exact pointsOf_subset _ M) i2
  obtain ⟨M4, e4, i4⟩ := emitLoop_spec hR (fun _ _ => some "\ntrace:call\n")
    (fun _ => "\ntrace:call\n") (fun _ _ _ _ _ => rfl)
    (findTraceLocations M tb0).func_calls _ M3
    (by rw [func_calls_eq]; exact pointsOf_subset _ M) i3
  obtain ⟨M5, e5, i5⟩ := emitLoop_spec hR (fun _ _ => some "\ntrace_end\n")
    (fun _ => "\ntrace_end\n") (fun _ _ _ _ _ => rfl)
    (findTraceLocations M tb0).trace_ends _ M4
    (by rw [trace_ends_eq]; exact pointsOf_subset _ M) i4
  refine ⟨M5, ?_, ?_⟩
  · simp only [emit, geti8StrVal] at e1 ⊢
    simp only [e1, e2, e3, e4, e5, Option.bind_eq_bind, Option.some_bind]
  · have := i5.2
    simpa [insertions, List.append_assoc] using this

/-- The emission is undefined when the start reference is not the address of an
instruction of the module. -/
theorem emit_none {printf_func : Callee} {M : Program} {tb : Nat} (htb : tb ∉ allAddrs M)
    (L : TraceState) : emit printf_func tb L M = none := by
  simp [emit, insertBefore, htb]


/-! ## `rename_bbs` and `printf_prototype` -/

theorem renameBlocks_insts (fn : String) :
    ∀ (first : Bool) (bs : List BasicBlock),
      List.Forall₂ (fun b b1 => b1.insts = b.insts) bs (renameBlocks fn first bs)
  | _, [] => List.Forall₂.nil
  | first, b :: r => by
    unfold renameBlocks
    split_ifs
    · exact List.Forall₂.cons rfl (renameBlocks_insts fn false r)
    · exact List.Forall₂.cons rfl (renameBlocks_insts fn false r)

theorem forall₂_same_insts {bs bs1 : List BasicBlock}
    (h : List.Forall₂ (fun b b1 => b1.insts = b.insts) bs bs1) :
    bs1.map (fun b => b.insts) = bs.map (fun b => b.insts) := by
  induction h with
  | nil => rfl
  | cons h _ ih => simp [h, ih]

theorem rename_bbs_rel (M : Program) :
    ProgRel (fun b b1 => b1.insts = b.insts) M (rename_bbs M) := by
  unfold ProgRel rename_bbs
  rw [List.forall₂_map_right_iff, List.forall₂_same]
  intro f _
  unfold renameFunction
  split_ifs
  · exact ⟨rfl, rfl, renameBlocks_insts f.name true f.blocks⟩
  · exact ⟨rfl, rfl, List.forall₂_same.2 (fun _ _ => rfl)⟩

theorem scanFunction_rename (s : TraceState) (f : Function) :
    scanFunction s (renameFunction f) = scanFunction s f := by
  have h : ∀ (bs bs1 : List BasicBlock), List.Forall₂ (fun b b1 => b1.insts = b.insts) bs bs1 →
      ∀ s, bs1.foldl (scanBlock f.name) s = bs.foldl (scanBlock f.name) s := by
    intro bs bs1 hb
    induction hb with
    | nil => intro s; rfl
    | cons h _ ih => intro s; simp only [List.foldl_cons, scanBlock, h, ih]
  unfold renameFunction
  split_ifs
  · exact h _ _ (renameBlocks_insts f.name true f.blocks) s
  · rfl

theorem findTraceLocations_rename (M : Program) (tb : Nat) :
    findTraceLocations (rename_bbs M) tb = findTraceLocations M tb := by
  have h : ∀ (N : Program) (s : TraceState),
      (N.map renameFunction).foldl scanFunction s = N.foldl scanFunction s := by
    intro N
    induction N with
    | nil => intro s; rfl
    | cons f r ih => intro s; simp only [List.map_cons, List.foldl_cons, scanFunction_rename, ih]
  exact h M _

theorem allInsts_rename (M : Program) : allInsts (rename_bbs M) = allInsts M := by
  have h := forall₂_same_insts (progRel_allBlocks (rename_bbs_rel M))
  unfold allInsts
  rw [List.flatMap_def, List.flatMap_def, h]

theorem printf_prototype_cases (M : Program) :
    (printf_prototype M).1.name = "printf" ∧
    ((printf_prototype M).2 = M ∨
      ((∀ f ∈ M, f.name ≠ "printf") ∧ (printf_prototype M).2 = M ++ [printfDecl])) := by
  unfold printf_prototype getOrInsertFunction
  split
  · exact ⟨rfl, Or.inl rfl⟩
  · next h =>
    refine ⟨rfl, Or.inr ⟨?_, rfl⟩⟩
    simpa using h

theorem allBlocks_printf (M : Program) : allBlocks (printf_prototype M).2 = allBlocks M := by
  rcases (printf_prototype_cases M).2 with h | ⟨_, h⟩ <;> rw [h]
  simp [allBlocks, printfDecl]

theorem findTraceLocations_printf (M : Program) (tb : Nat) :
    findTraceLocations (printf_prototype M).2 tb = findTraceLocations M tb := by
  rcases (printf_prototype_cases M).2 with h | ⟨_, h⟩ <;> rw [h]
  simp [findTraceLocations, List.foldl_append, scanFunction, printfDecl]

theorem allAddrs_rename (M : Program) : allAddrs (rename_bbs M) = allAddrs M := by
  unfold allAddrs
  rw [allInsts_rename]

theorem allAddrs_printf (M : Program) : allAddrs (printf_prototype M).2 = allAddrs M := by
  unfold allAddrs allInsts
  rw [allBlocks_printf]

theorem allAddrs_prepared (M : Program) :
    allAddrs (rename_bbs (printf_prototype M).2) = allAddrs M := by
  rw [allAddrs_rename, allAddrs_printf]

theorem findTraceLocations_prepared (M : Program) (tb : Nat) :
    findTraceLocations (rename_bbs (printf_prototype M).2) tb = findTraceLocations M tb := by
  rw [findTraceLocations_rename, findTraceLocations_printf]

/-! ## `runOnModule` -/

/-- The run is undefined when the start reference of `runOnModule` is not the
address of an instruction of the module. -/
theorem runOnModule_none {M : Program} {tb : Nat} (htb : tb ∉ allAddrs M) :
    runOnModule tb M = none := by
  unfold runOnModule
  exact emit_none (by rwa [allAddrs_prepared]) _

/-- When the start reference of `runOnModule` is the address of an instruction
of the module the run is defined, and every family of block relations that
each insertion keeps holds between the renamed module and the result. -/
theorem runOnModule_spec {R : List (Nat × String) → BasicBlock → BasicBlock → Prop}
    (M : Program) (tb : Nat) (htb : tb ∈ allAddrs M)
    (hR : StepClosed (allAddrs M) (printf_prototype M).1 R)
    (hcore : ∀ done b b1, R done b b1 → Core (allAddrs M) b b1)
    (h0 : ∀ b ∈ allBlocks (rename_bbs (printf_prototype M).2), R [] b b) :
    ∃ M1, runOnModule tb M = some M1 ∧
      ProgRel (R (insertions (rename_bbs (printf_prototype M).2) tb (findTraceLocations M tb)))
        (rename_bbs (printf_prototype M).2) M1 := by
  have hA := allAddrs_prepared M
  have := emit_spec (printf_prototype M).1 (rename_bbs (printf_prototype M).2) R
    (by rwa [hA]) (by rwa [hA]) (progRel_refl h0) (show tb ∈ _ by rwa [hA]) tb
  rw [findTraceLocations_prepared] at this
  obtain ⟨M1, e, r⟩ := this
  refine ⟨M1, ?_, r⟩
  show emit (printf_prototype M).1 tb
    (findTraceLocations (rename_bbs (printf_prototype M).2) tb) _ = some M1
  rw [findTraceLocations_prepared]
  exact e

theorem insertions_fst (M : Program) (tb : Nat) (L : TraceState) :
    (insertions M tb L).map Prod.fst = tb :: located L := by
  simp [insertions, located, Function.comp_def]

theorem instrumented_refl {M : Program} :
    ∀ b ∈ allBlocks M, Instrumented (allAddrs M) [] b b := by
  intro b hb
  have hin : ∀ i ∈ b.insts, i.addr ∈ allAddrs M :=
    fun i hi => List.mem_map_of_mem _ (mem_allInsts.2 ⟨b, hb, hi⟩)
  refine ⟨⟨rfl, ?_⟩, by simp [targetsIn], by simp [targetsIn],
    fun i hi hn => absurd (hin i hi) hn, fun h _ => h⟩
  rw [List.filter_eq_self]
  intro i hi
  simpa using hin i hi

/-- When the start reference is the address of an instruction of the module,
`runOnModule` is defined and every block of the result is the renamed block
with the sink calls of the run inserted. -/
theorem runOnModule_instrumented (M : Program) (tb : Nat) (htb : tb ∈ allAddrs M) :
    ∃ M1, runOnModule tb M = some M1 ∧
      ProgRel (Instrumented (allAddrs M)
          (insertions (rename_bbs (printf_prototype M).2) tb (findTraceLocations M tb)))
        (rename_bbs (printf_prototype M).2) M1 := by
  refine runOnModule_spec M tb htb
    (instrumented_step _ _ (printf_prototype_cases M).1) (fun _ _ _ h => h.1) ?_
  have := instrumented_refl (M := rename_bbs (printf_prototype M).2)
  rwa [allAddrs_prepared] at this

theorem targetsIn_congr (ts : List Nat) {b b1 : BasicBlock} (h : b1.insts = b.insts) :
    targetsIn ts b1 = targetsIn ts b := by
  simp [targetsIn, blockAddrs, h]

theorem grown_of_instrumented {A : List Nat} {done : List (Nat × String)}
    {b b1 b2 : BasicBlock} (h : b1.insts = b.insts) (h1 : Instrumented A done b1 b2) :
    Grown A (done.map Prod.fst) b b2 := by
  obtain ⟨⟨_, hf⟩, hl, _, hnew, _⟩ := h1
  rw [h] at hf hl
  rw [targetsIn_congr _ h] at hl
  refine ⟨hf, hnew, hl, fun h0 => ?_⟩
  rw [h0, Nat.add_zero, ← hf] at hl
  rw [← hf]
  exact (List.filter_eq_self.2 (List.filter_length_eq_length.1 hl.symm)).symm

/-! ## Totals over the module -/

theorem sum_rel {R : BasicBlock → BasicBlock → Prop} {f h : BasicBlock → Nat}
    (hR : ∀ b b1, R b b1 → f b1 = f b + h b) :
    ∀ {l l1 : List BasicBlock}, List.Forall₂ R l l1 →
      (l1.map f).sum = (l.map f).sum + (l.map h).sum
  | _, _, List.Forall₂.nil => rfl
  | _, _, List.Forall₂.cons hb t => by
    simp only [List.map_cons, List.sum_cons, hR _ _ hb, sum_rel hR t]
    omega

theorem targets_sum_pos (ts : List Nat) (t : Nat) (M : Program) (ht : t ∈ ts)
    (htM : t ∈ allAddrs M) : 0 < ((allBlocks M).map (targetsIn ts)).sum := by
  obtain ⟨f, hf, b, hb, i, hi, rfl⟩ := mem_allAddrs.1 htM
  have hb1 : b ∈ allBlocks M := mem_allBlocks.2 ⟨f, hf, hb⟩
  have hpos : 0 < targetsIn ts b := by
    unfold targetsIn
    rw [List.countP_pos_iff]
    exact ⟨i.addr, ht, by simpa [blockAddrs] using ⟨i, hi, rfl⟩⟩
  exact Nat.lt_of_lt_of_le hpos
    (List.single_le_sum (fun _ _ => Nat.zero_le _) _ (List.mem_map_of_mem _ hb1))

theorem sinkCalls_allInsts (M : Program) :
    sinkCalls (allInsts M) = ((allBlocks M).map (fun b => sinkCalls b.insts)).sum := by
  unfold sinkCalls allInsts
  rw [List.flatMap_def, List.countP_flatten, List.map_map]
  rfl

theorem length_allInsts (M : Program) :
    (allInsts M).length = ((allBlocks M).map (fun b => b.insts.length)).sum := by
  unfold allInsts
  rw [List.flatMap_def, List.length_flatten, List.map_map]
  rfl

/-- Every defined run of the pass adds at least one sink call and at least one
instruction to the module. -/
theorem runOnModule_adds (M : Program) (tb : Nat) (htb : tb ∈ allAddrs M) :
    ∃ M1, runOnModule tb M = some M1 ∧
      sinkCalls (allInsts M) < sinkCalls (allInsts M1) ∧
      (allInsts M).length < (allInsts M1).length := by
  obtain ⟨M1, h1, h2⟩ := runOnModule_instrumented M tb htb
  refine ⟨M1, h1, ?_, ?_⟩
  · have hs := sum_rel (f := fun b => sinkCalls b.insts) (fun b b1 h => h.2.2.1)
      (progRel_allBlocks h2)
    have hpos := targets_sum_pos ((insertions (rename_bbs (printf_prototype M).2) tb
      (findTraceLocations M tb)).map Prod.fst) tb (rename_bbs (printf_prototype M).2)
      (by simp [insertions]) (by rwa [allAddrs_prepared])
    rw [sinkCalls_allInsts M1, hs, ← sinkCalls_allInsts, allInsts_rename]
    have : allInsts (printf_prototype M).2 = allInsts M := by
      unfold allInsts; rw [allBlocks_printf]
    rw [this]
    omega
  · have hs := sum_rel (f := fun b => b.insts.length) (fun b b1 h => h.2.1)
      (progRel_allBlocks h2)
    have hpos := targets_sum_pos ((insertions (rename_bbs (printf_prototype M).2) tb
      (findTraceLocations M tb)).map Prod.fst) tb (rename_bbs (printf_prototype M).2)
      (by simp [insertions]) (by rwa [allAddrs_prepared])
    rw [length_allInsts M1, hs, ← length_allInsts, allInsts_rename]
    have : allInsts (printf_prototype M).2 = allInsts M := by
      unfold allInsts; rw [allBlocks_printf]
    rw [this]
    omega

theorem renameBlocks_false (fn : String) :
    ∀ bs : List BasicBlock,
      List.Forall₂ (fun c c1 => c1.name = fn ++ "_bb" ∧ c1.insts = c.insts) bs
        (renameBlocks fn false bs)
  | [] => List.Forall₂.nil
  | b :: r => by
    unfold renameBlocks
    simp only [Bool.false_eq_true, if_false]
    refine List.Forall₂.cons ⟨?_, rfl⟩ (renameBlocks_false fn r)
    simp [setName, String.append_assoc]

/-! ## Targets and phi nodes -/

theorem entryTargets_not_phi {M : Program} (hM : (allAddrs M).Nodup) :
    ∀ a ∈ entryTargets M, ∀ i ∈ allInsts M, i.addr = a → isPHINode i = false := by
  intro a ha i hi hia
  obtain ⟨b, hb, j, hj, rfl⟩ := entry_mem_block ha
  have hjm : j ∈ allInsts M := mem_allInsts.2 ⟨b, hb, (firstNonPhi_mem hj).1⟩
  rw [allInsts_inj hM hi hjm hia]
  exact (firstNonPhi_mem hj).2

theorem tagged_snd_mem {M : Program} {p : String × Instruction} (hp : p ∈ tagged M) :
    p.2 ∈ allInsts M := by
  obtain ⟨f, hf, b, hb, i, hi, rfl⟩ := mem_tagged.1 hp
  exact mem_allInsts.2 ⟨b, mem_allBlocks.2 ⟨f, hf, hb⟩, hi⟩

theorem pointsOf_not_phi {c : String × Instruction → Bool}
    (hc : ∀ p, c p = true → isPHINode p.2 = false) {M : Program} (hM : (allAddrs M).Nodup) :
    ∀ a ∈ pointsOf c M, ∀ i ∈ allInsts M, i.addr = a → isPHINode i = false := by
  intro a ha i hi hia
  obtain ⟨p, hp, hcp, rfl⟩ := mem_pointsOf.1 ha
  rw [allInsts_inj hM hi (tagged_snd_mem hp) hia]
  exact hc p hcp

theorem isEnd_not_phi (p : String × Instruction) (h : isEnd p = true) :
    isPHINode p.2 = false := by
  rcases p with ⟨fn, a, k⟩
  cases k <;> simp_all [isEnd, isPHINode]

theorem isFuncReturn_not_phi (p : String × Instruction) (h : isFuncReturn p = true) :
    isPHINode p.2 = false := by
  rcases p with ⟨fn, a, k⟩
  cases k <;> simp_all [isFuncReturn, isPHINode]

theorem isFuncCall_not_phi (p : String × Instruction) (h : isFuncCall p = true) :
    isPHINode p.2 = false := by
  rcases p with ⟨fn, a, k⟩
  cases k <;> simp_all [isFuncCall, isPHINode]

/-- No address in the four vectors of `findTraceLocations` is the address of a
phi node. -/
theorem located_not_phi {M : Program} (hM : (allAddrs M).Nodup) (tb : Nat) :
    ∀ a ∈ located (findTraceLocations M tb), ∀ i ∈ allInsts M, i.addr = a →
      isPHINode i = false := by
  intro a ha
  simp only [located, List.mem_append, trace_prints_eq, func_returns_eq, func_calls_eq,
    trace_ends_eq] at ha
  rcases ha with h | h | h | h
  · exact entryTargets_not_phi hM a h
  · exact pointsOf_not_phi isFuncReturn_not_phi hM a h
  · exact pointsOf_not_phi isFuncCall_not_phi hM a h
  · exact pointsOf_not_phi isEnd_not_phi hM a h

theorem blocks_prepared (M : Program) :
    (allBlocks (rename_bbs (printf_prototype M).2)).map (fun b => b.insts) =
      (allBlocks M).map (fun b => b.insts) := by
  rw [forall₂_same_insts (progRel_allBlocks (rename_bbs_rel _)), allBlocks_printf]

theorem forall₂_exists_left {R : BasicBlock → BasicBlock → Prop} :
    ∀ {l l1 : List BasicBlock}, List.Forall₂ R l l1 → ∀ b1 ∈ l1, ∃ b ∈ l, R b b1
  | _, _, List.Forall₂.nil => fun _ h => absurd h (List.not_mem_nil _)
  | _, _, List.Forall₂.cons h t => fun b1 hb1 => by
    rcases List.mem_cons.1 hb1 with rfl | hm
    · exact ⟨_, List.mem_cons_self _ _, h⟩
    · obtain ⟨b, hb, hr⟩ := forall₂_exists_left t b1 hm
      exact ⟨b, List.mem_cons_of_mem _ hb, hr⟩

/-! ## The layout of the inserted calls -/

theorem insertInList_append_left {new : Instruction} {t : Nat} {g : List Instruction}
    (hg : ∀ x ∈ g, x.addr ≠ t) (l : List Instruction) :
    insertInList new t (g ++ l) = g ++ insertInList new t l := by
  induction g with
  | nil => rfl
  | cons x r ih =>
    have hx : x.addr ≠ t := hg x (List.mem_cons_self _ _)
    have := ih (fun y hy => hg y (List.mem_cons_of_mem _ hy))
    rw [List.cons_append, insertInList, if_neg hx, this, List.cons_append]

theorem messagesAt_snoc (done : List (Nat × String)) (t : Nat) (str : String) (a : Nat) :
    messagesAt (done ++ [(t, str)]) a = messagesAt done a ++ (if t = a then [str] else []) := by
  unfold messagesAt
  by_cases h : t = a <;> simp [List.filter_append, List.filter_cons, h]

theorem laid_snoc_other {A : List Nat} {pf : Callee} {done : List (Nat × String)} {t : Nat}
    (str : String) :
    ∀ {l l1 : List Instruction}, t ∉ l.map (fun i => i.addr) → Laid A pf done l l1 →
      Laid A pf (done ++ [(t, str)]) l l1
  | [], _, _, h => h
  | i :: r, _, ht, ⟨g, rest, hl, hg, hk, hr⟩ => by
    have hti : t ≠ i.addr := fun e => ht (by simp [e])
    refine ⟨g, rest, hl, hg, ?_, laid_snoc_other str (fun h => ht (by simp at h ⊢; exact Or.inr h)) hr⟩
    rw [messagesAt_snoc, if_neg hti, List.append_nil]
    exact hk

theorem laid_step {A : List Nat} {pf : Callee} {done : List (Nat × String)} {t : Nat}
    (ht : t ∈ A) {new : Instruction} (hn : new.addr ∉ A) (str : String)
    (hk : new.kind = sinkKind pf str) :
    ∀ {l l1 : List Instruction}, (l.map (fun i => i.addr)).Nodup → Laid A pf done l l1 →
      Laid A pf (done ++ [(t, str)]) l (insertInList new t l1)
  | [], _, _, h => by
    have : _ = [] := h
    subst this
    exact (rfl : insertInList new t [] = [])
  | i :: r, _, hnd, ⟨g, rest, hl, hg, hgk, hr⟩ => by
    subst hl
    have hgt : ∀ x ∈ g, x.addr ≠ t := fun x hx e => hg x hx (e ▸ ht)
    rw [insertInList_append_left hgt]
    have hnd' := List.nodup_cons.1 hnd
    by_cases hi : i.addr = t
    · refine ⟨g ++ [new], rest, ?_, ?_, ?_, ?_⟩
      · simp [insertInList, hi]
      · intro x hx
        rcases List.mem_append.1 hx with h | h
        · exact hg x h
        · rw [List.mem_singleton.1 h]; exact hn
      · rw [messagesAt_snoc, if_pos hi.symm, List.map_append, List.map_append, hgk]
        simp [hk]
      · exact laid_snoc_other str (hi ▸ hnd'.1) hr
    · refine ⟨g, insertInList new t rest, ?_, hg, ?_, laid_step ht hn str hk hnd'.2 hr⟩
      · simp [insertInList, hi]
      · rw [messagesAt_snoc, if_neg (fun e => hi e.symm), List.append_nil]
        exact hgk

theorem laid_refl (A : List Nat) (pf : Callee) : ∀ l : List Instruction, Laid A pf [] l l
  | [] => rfl
  | i :: r => ⟨[], r, rfl, fun _ h => absurd h (List.not_mem_nil _), by simp [messagesAt],
      laid_refl A pf r⟩

theorem laidOut_step (A : List Nat) (printf_func : Callee) :
    StepClosed A printf_func (LaidOut A printf_func) := by
  intro done t str new b b1 ht hn hk h
  refine ⟨core_step h.1 hn t, fun hnd => ?_⟩
  exact laid_step ht hn str hk hnd (h.2 hnd)

/-- Every instruction of `l` has its run of sink calls directly in front of it
in `l1`. -/
theorem laid_mem {A : List Nat} {pf : Callee} {done : List (Nat × String)} :
    ∀ {l l1 : List Instruction}, Laid A pf done l l1 → ∀ i ∈ l,
      ∃ pre g post, l1 = pre ++ g ++ i :: post ∧ (∀ x ∈ g, x.addr ∉ A) ∧
        g.map (fun x => x.kind) = (messagesAt done i.addr).map (sinkKind pf)
  | [], _, _, i, hi => absurd hi (List.not_mem_nil _)
  | j :: r, _, ⟨g, rest, hl, hg, hgk, hr⟩, i, hi => by
    rcases List.mem_cons.1 hi with rfl | h
    · exact ⟨[], g, rest, by simpa using hl, hg, hgk⟩
    · obtain ⟨pre, g1, post, h1, h2, h3⟩ := laid_mem hr i h
      exact ⟨g ++ j :: pre, g1, post, by simp [hl, h1], h2, h3⟩

theorem messagesAt_append (d1 d2 : List (Nat × String)) (a : Nat) :
    messagesAt (d1 ++ d2) a = messagesAt d1 a ++ messagesAt d2 a := by
  simp [messagesAt]

theorem messagesAt_map (μ : Nat → String) (ts : List Nat) (a : Nat) :
    messagesAt (ts.map (fun t => (t, μ t))) a = List.replicate (ts.count a) (μ a) := by
  induction ts with
  | nil => simp [messagesAt]
  | cons t r ih =>
    unfold messagesAt at ih ⊢
    by_cases h : t = a
    · subst h
      simp [List.filter_cons, ih, List.replicate_succ]
    · have h1 : ¬ (t == a) = true := by simpa using h
      simp [List.filter_cons, h, ih, List.count_cons, h1]

theorem messagesAt_insertions (M : Program) (tb : Nat) (L : TraceState) (a : Nat) :
    messagesAt (insertions M tb L) a =
      startMessages tb a ++
        (List.replicate (L.trace_prints.count a) (entryMessage M a) ++ tailMessages L a) := by
  unfold insertions tailMessages
  rw [← List.singleton_append]
  simp only [messagesAt_append]
  rw [messagesAt_map (fun t => entryMessage M t), messagesAt_map (fun _ => "\ntrace:return\n"),
    messagesAt_map (fun _ => "\ntrace:call\n"), messagesAt_map (fun _ => "\ntrace_end\n")]
  congr 1
  unfold messagesAt startMessages
  by_cases h : tb = a <;> simp [h]

/-! ## The message of a block entry -/

theorem cString_of_noNul {l : List Char} (h : '\x00' ∉ l) (r : List Char) :
    cString (l ++ '\x00' :: r) = l := by
  unfold cString
  induction l with
  | nil => simp [List.takeWhile]
  | cons c t ih =>
    have hc : c ≠ '\x00' := fun e => h (by simp [e])
    have ht : '\x00' ∉ t := fun e => h (List.mem_cons_of_mem _ e)
    simp only [List.cons_append, List.takeWhile_cons]
    simp [hc, ih ht]

theorem cString_self_of_noNul {l : List Char} (h : '\x00' ∉ l) : cString l = l := by
  unfold cString
  rw [List.takeWhile_eq_self_iff]
  intro c hc
  have : c ≠ '\x00' := fun e => h (e ▸ hc)
  simpa using this

theorem bbNameString_of_noNul (name : String) (h : noNul name) :
    bbNameString name = "\ntrace:".toList ++ name.toList ++ ['\n', '\x00'] := by
  have hlen : name.toList.length = name.length := rfl
  have h7 : cString "\ntrace:".toList = "\ntrace:".toList := by decide
  have h1 : cString "\n".toList = "\n".toList := by decide
  have hn : cString name.toList = name.toList := cString_self_of_noNul h
  unfold bbNameString strcpy
  simp only [h7, h1, hn]
  have l7 : "\ntrace:".toList.length = 7 := by decide
  have l1 : "\n".toList.length = 1 := by decide
  simp only [l7, l1, hlen, List.take_zero, List.nil_append, Nat.zero_add]
  generalize hp : "\ntrace:".toList = p at l7 ⊢
  generalize hq : name.toList = q at hlen ⊢
  have hB1 : (p ++ ['\x00'] ++ List.drop (7 + 1) (List.replicate (name.length + 8) '\x00')).length
      = name.length + 8 := by
    simp [l7]; omega
  have ht7 : List.take 7 (p ++ ['\x00'] ++
      List.drop (7 + 1) (List.replicate (name.length + 8) '\x00')) = p := by
    rw [List.append_assoc, List.take_append_of_le_length (by omega), List.take_of_length_le (by omega)]
  have hd : List.drop (7 + name.length + 1) (p ++ ['\x00'] ++
      List.drop (7 + 1) (List.replicate (name.length + 8) '\x00')) = [] :=
    List.drop_eq_nil_of_le (by omega)
  rw [ht7, hd, List.append_nil]
  have ht : List.take (7 + name.length) (p ++ (q ++ ['\x00'])) = p ++ q := by
    rw [← List.append_assoc, List.take_append_of_le_length (by simp [l7, hlen]),
      List.take_of_length_le (by simp [l7, hlen])]
  have hd2 : List.drop (7 + name.length + 1 + 1) (p ++ (q ++ ['\x00'])) = [] :=
    List.drop_eq_nil_of_le (by simp [l7, hlen]; omega)
  rw [ht, hd2, List.append_nil, ← hp]
  rfl


theorem blockMessage_of_noNul (name : String) (h : noNul name) :
    blockMessage name = "\ntrace:" ++ name ++ "\n" := by
  unfold blockMessage
  rw [bbNameString_of_noNul name h]
  have hno : '\x00' ∉ "\ntrace:".toList ++ name.toList ++ ['\n'] := by
    intro hm
    rcases List.mem_append.1 hm with h1 | h1
    · rcases List.mem_append.1 h1 with h2 | h2
      · exact absurd h2 (by decide)
      · exact h h2
    · exact absurd h1 (by decide)
  have : "\ntrace:".toList ++ name.toList ++ ['\n', '\x00'] =
      ("\ntrace:".toList ++ name.toList ++ ['\n']) ++ '\x00' :: [] := by simp
  rw [this, cString_of_noNul hno]
  rfl

/-! ## Parents, names and messages -/

theorem allAddrs_eq_flatMap (M : Program) : allAddrs M = (allBlocks M).flatMap blockAddrs := by
  unfold allAddrs allInsts blockAddrs
  rw [List.map_flatMap]

/-- In a module whose instructions have distinct addresses, the parent of an
address is the block that holds it. -/
theorem getParent_eq {M : Program} (hM : (allAddrs M).Nodup) {b : BasicBlock}
    (hb : b ∈ allBlocks M) {t : Nat} (ht : t ∈ blockAddrs b) : getParent M t = some b := by
  obtain ⟨l₁, l₂, hl⟩ := List.mem_iff_append.1 hb
  rw [allAddrs_split hl] at hM
  have hd1 := (List.nodup_append.1 hM).2.2
  unfold getParent
  rw [hl, List.find?_append]
  have hnone : l₁.find? (fun b => decide (t ∈ blockAddrs b)) = none := by
    rw [List.find?_eq_none]
    intro c hc hct
    have hct1 : t ∈ blockAddrs c := by simpa using hct
    obtain ⟨i, hi, hia⟩ := List.mem_map.1 hct1
    have : t ∈ (l₁.flatMap (fun b => b.insts)).map (fun i => i.addr) :=
      List.mem_map.2 ⟨i, List.mem_flatMap.2 ⟨c, hc, hi⟩, hia⟩
    exact hd1 this (List.mem_append_left _ ht)
  rw [hnone]
  simp [List.find?_cons, ht]

theorem entryMessage_eq {M : Program} (hM : (allAddrs M).Nodup) {b : BasicBlock}
    (hb : b ∈ allBlocks M) {t : Nat} (ht : t ∈ blockAddrs b) (hn : noNul b.name) :
    entryMessage M t = "\ntrace:" ++ b.name ++ "\n" := by
  unfold entryMessage printMessage
  rw [getParent_eq hM hb ht]
  exact blockMessage_of_noNul b.name hn

theorem noNul_append {s t : String} (hs : noNul s) (ht : noNul t) : noNul (s ++ t) := by
  unfold noNul at *
  rw [String.toList, String.data_append]
  intro h
  rcases List.mem_append.1 h with h1 | h1
  · exact hs h1
  · exact ht h1

theorem renameBlocks_names (fn : String) :
    ∀ (first : Bool) (bs : List BasicBlock), ∀ b1 ∈ renameBlocks fn first bs,
      b1.name = fn ++ "_" ++ "entry" ∨ b1.name = fn ++ "_" ++ "bb"
  | _, [], b1, h => absurd h (List.not_mem_nil _)
  | first, b :: r, b1, h => by
    unfold renameBlocks at h
    split_ifs at h
    · rcases List.mem_cons.1 h with rfl | h1
      · exact Or.inl rfl
      · exact renameBlocks_names fn false r b1 h1
    · rcases List.mem_cons.1 h with rfl | h1
      · exact Or.inr rfl
      · exact renameBlocks_names fn false r b1 h1

theorem namesNoNul_prepared {M : Program} (h : namesNoNul M) :
    ∀ b ∈ allBlocks (rename_bbs (printf_prototype M).2), noNul b.name := by
  intro b hb
  obtain ⟨f1, hf1, hb1⟩ := mem_allBlocks.1 hb
  obtain ⟨f, hf, rfl⟩ := List.mem_map.1 hf1
  have hfM : f ∈ M ∨ f = printfDecl := by
    rcases (printf_prototype_cases M).2 with e | ⟨_, e⟩ <;> rw [e] at hf
    · exact Or.inl hf
    · simpa using hf
  unfold renameFunction at hb1
  rcases hfM with hfM | rfl
  · split_ifs at hb1
    · rcases renameBlocks_names f.name true f.blocks b hb1 with e | e <;> rw [e]
      · exact noNul_append (noNul_append (h f hfM).1 (by unfold noNul; decide))
          (by unfold noNul; decide)
      · exact noNul_append (noNul_append (h f hfM).1 (by unfold noNul; decide))
          (by unfold noNul; decide)
    · exact (h f hfM).2 b hb1
  · simp [printfDecl] at hb1

/-! ## The calls in front of an instruction after a run -/

theorem forall₂_imp_mem {α : Type} {R S : α → α → Prop} :
    ∀ {l l1 : List α}, List.Forall₂ R l l1 → (∀ a ∈ l, ∀ b, R a b → S a b) →
      List.Forall₂ S l l1
  | _, _, List.Forall₂.nil, _ => List.Forall₂.nil
  | _, _, List.Forall₂.cons h t, hS =>
    List.Forall₂.cons (hS _ (List.mem_cons_self _ _) _ h)
      (forall₂_imp_mem t (fun a ha => hS a (List.mem_cons_of_mem _ ha)))

theorem progRel_mono_mem {R S : BasicBlock → BasicBlock → Prop} {M M1 : Program}
    (h : ProgRel R M M1) (hS : ∀ b ∈ allBlocks M, ∀ b1, R b b1 → S b b1) : ProgRel S M M1 := by
  unfold ProgRel at *
  refine forall₂_imp_mem h ?_
  rintro f hf f1 ⟨hn, hd, hb⟩
  exact ⟨hn, hd, forall₂_imp_mem hb (fun b hbm => hS b (mem_allBlocks.2 ⟨f, hf, hbm⟩))⟩

theorem blockAddrs_nodup {M : Program} (hM : (allAddrs M).Nodup) {b : BasicBlock}
    (hb : b ∈ allBlocks M) : (blockAddrs b).Nodup := by
  obtain ⟨l₁, l₂, hl⟩ := List.mem_iff_append.1 hb
  rw [allAddrs_split hl] at hM
  exact (List.nodup_append.1 (List.nodup_append.1 hM).2.1).1

/-- When the start reference is the address of an instruction of the module,
`runOnModule` is defined and every block of the result is the renamed block
with the sink calls of the run laid out in front of their targets. -/
theorem runOnModule_laid (M : Program) (tb : Nat) (htb : tb ∈ allAddrs M) :
    ∃ M1, runOnModule tb M = some M1 ∧
      ProgRel (LaidOut (allAddrs M) (printf_prototype M).1
          (insertions (rename_bbs (printf_prototype M).2) tb (findTraceLocations M tb)))
        (rename_bbs (printf_prototype M).2) M1 := by
  refine runOnModule_spec M tb htb (laidOut_step _ _) (fun _ _ _ h => h.1) ?_
  intro b hb
  have h := (instrumented_refl (M := rename_bbs (printf_prototype M).2) b hb).1
  rw [allAddrs_prepared] at h
  exact ⟨h, fun _ => laid_refl _ _ _⟩

/-- In a module whose instructions have distinct addresses, every original
instruction of the result of a defined run has directly in front of it the
sink calls of the run for its address, in the order of the insertions. -/
theorem runOnModule_groups (M : Program) (tb : Nat) (hM : (allAddrs M).Nodup)
    (htb : tb ∈ allAddrs M) :
    ∃ M1, runOnModule tb M = some M1 ∧
      ProgRel (fun b b1 => ∀ i ∈ b.insts, ∃ pre g post, b1.insts = pre ++ g ++ i :: post ∧
          (∀ x ∈ g, x.addr ∉ allAddrs M) ∧
          g.map (fun x => x.kind) =
            (messagesAt (insertions (rename_bbs (printf_prototype M).2) tb
              (findTraceLocations M tb)) i.addr).map (sinkKind (printf_prototype M).1))
        (rename_bbs (printf_prototype M).2) M1 := by
  obtain ⟨M1, h1, h2⟩ := runOnModule_laid M tb htb
  refine ⟨M1, h1, progRel_mono_mem h2 ?_⟩
  intro b hb b1 hr i hi
  have hnd : (blockAddrs b).Nodup :=
    blockAddrs_nodup (by rwa [allAddrs_prepared]) hb
  exact laid_mem (hr.2 hnd) i hi

theorem entryTargets_sublist (M : Program) : (entryTargets M).Sublist (allAddrs M) := by
  rw [allAddrs_eq_flatMap]
  unfold entryTargets
  generalize allBlocks M = l
  induction l with
  | nil => exact List.Sublist.slnil
  | cons b r ih =>
    rw [List.flatMap_cons, List.filterMap_cons]
    cases h : firstNonPhi b.insts with
    | none => exact ih.trans (List.sublist_append_right _ _)
    | some j =>
      have hj : j.addr ∈ blockAddrs b := List.mem_map_of_mem _ (firstNonPhi_mem h).1
      exact (List.singleton_sublist.2 hj).append ih

theorem entryTargets_nodup {M : Program} (hM : (allAddrs M).Nodup) : (entryTargets M).Nodup :=
  (entryTargets_sublist M).nodup hM

theorem pointsOf_disjoint {c d : String × Instruction → Bool}
    (hcd : ∀ p, c p = true → d p = false) {M : Program} (hM : (allAddrs M).Nodup) :
    ∀ a ∈ pointsOf c M, a ∉ pointsOf d M := by
  intro a ha hd
  obtain ⟨p, hp, hcp, rfl⟩ := mem_pointsOf.1 ha
  have := (addr_mem_pointsOf hM hp).1 hd
  rw [hcd p hcp] at this
  exact absurd this (by decide)

theorem isFuncReturn_not_call (p : String × Instruction) (h : isFuncReturn p = true) :
    isFuncCall p = false := by
  rcases p with ⟨fn, a, k⟩
  cases k <;> simp_all [isFuncReturn, isFuncCall]

theorem isFuncReturn_not_end (p : String × Instruction) (h : isFuncReturn p = true) :
    isEnd p = false := by
  rcases p with ⟨fn, a, k⟩
  cases k <;> simp_all [isFuncReturn, isEnd]

theorem isFuncCall_not_end (p : String × Instruction) (h : isFuncCall p = true) :
    isEnd p = false := by
  rcases p with ⟨fn, a, k⟩
  cases k with
  | call c args => cases c <;> simp_all [isFuncCall, isEnd]
  | phi => simp_all [isFuncCall]
  | ret => simp_all [isFuncCall]
  | other => simp_all [isFuncCall]

/-- In a module whose instructions have distinct addresses, an address is at
most once in the three vectors `func_returns`, `func_calls` and `trace_ends`
taken together. -/
theorem tail_count_le_one {M : Program} (hM : (allAddrs M).Nodup) (tb a : Nat) :
    (findTraceLocations M tb).func_returns.count a +
      ((findTraceLocations M tb).func_calls.count a +
        (findTraceLocations M tb).trace_ends.count a) ≤ 1 := by
  rw [func_returns_eq, func_calls_eq, trace_ends_eq]
  have hr := pointsOf_nodup isFuncReturn hM
  have hc := pointsOf_nodup isFuncCall hM
  have he := pointsOf_nodup isEnd hM
  have c1 := List.nodup_iff_count_le_one.1 hr a
  have c2 := List.nodup_iff_count_le_one.1 hc a
  have c3 := List.nodup_iff_count_le_one.1 he a
  by_cases h1 : a ∈ pointsOf isFuncReturn M
  · have n2 := pointsOf_disjoint isFuncReturn_not_call hM a h1
    have n3 := pointsOf_disjoint isFuncReturn_not_end hM a h1
    rw [List.count_eq_zero_of_not_mem n2, List.count_eq_zero_of_not_mem n3]
    omega
  · rw [List.count_eq_zero_of_not_mem h1]
    by_cases h2 : a ∈ pointsOf isFuncCall M
    · have n3 := pointsOf_disjoint isFuncCall_not_end hM a h2
      rw [List.count_eq_zero_of_not_mem n3]
      omega
    · rw [List.count_eq_zero_of_not_mem h2]
      omega

theorem tailMessages_eq {M : Program} (hM : (allAddrs M).Nodup) (tb : Nat) {a : Nat}
    (ha : a ∈ (findTraceLocations M tb).func_returns ∨ a ∈ (findTraceLocations M tb).func_calls ∨
      a ∈ (findTraceLocations M tb).trace_ends) :
    tailMessages (findTraceLocations M tb) a = [categoryMessage (findTraceLocations M tb) a] := by
  have hle := tail_count_le_one hM tb a
  unfold tailMessages categoryMessage
  by_cases h1 : a ∈ (findTraceLocations M tb).func_returns
  · have p1 := List.count_pos_iff.2 h1
    have e1 : (findTraceLocations M tb).func_returns.count a = 1 := by omega
    have e2 : (findTraceLocations M tb).func_calls.count a = 0 := by omega
    have e3 : (findTraceLocations M tb).trace_ends.count a = 0 := by omega
    simp [e1, e2, e3, h1]
  · have e1 : (findTraceLocations M tb).func_returns.count a = 0 :=
      List.count_eq_zero_of_not_mem h1
    by_cases h2 : a ∈ (findTraceLocations M tb).func_calls
    · have p2 := List.count_pos_iff.2 h2
      have e2 : (findTraceLocations M tb).func_calls.count a = 1 := by omega
      have e3 : (findTraceLocations M tb).trace_ends.count a = 0 := by omega
      simp [e1, e2, e3, h1, h2]
    · have e2 : (findTraceLocations M tb).func_calls.count a = 0 :=
        List.count_eq_zero_of_not_mem h2
      have h3 : a ∈ (findTraceLocations M tb).trace_ends := by
        rcases ha with h | h | h
        · exact absurd h h1
        · exact absurd h h2
        · exact h
      have p3 := List.count_pos_iff.2 h3
      have e3 : (findTraceLocations M tb).trace_ends.count a = 1 := by omega
      simp [e1, e2, e3, h1, h2]

/-! ## Renamed blocks and the message buffer -/

theorem mem_prepared {M : Program} {f : Function} (hf : f ∈ M) :
    renameFunction f ∈ rename_bbs (printf_prototype M).2 := by
  unfold rename_bbs
  refine List.mem_map_of_mem _ ?_
  rcases (printf_prototype_cases M).2 with e | ⟨_, e⟩ <;> rw [e]
  · exact hf
  · exact List.mem_append_left _ hf

theorem renameBlocks_mem_later (fn : String) :
    ∀ (first : Bool) (bs : List BasicBlock), ∀ c ∈ bs.tail,
      setName c (fn ++ "_" ++ "bb") ∈ renameBlocks fn first bs
  | _, [], c, h => absurd h (List.not_mem_nil _)
  | first, b :: r, c, h => by
    have hc : c ∈ r := h
    have hin : setName c (fn ++ "_" ++ "bb") ∈ renameBlocks fn false r := by
      cases r with
      | nil => exact absurd hc (List.not_mem_nil _)
      | cons d s =>
        rcases List.mem_cons.1 hc with rfl | h1
        · simp [renameBlocks]
        · have := renameBlocks_mem_later fn false (d :: s) c h1
          exact this
    unfold renameBlocks
    split_ifs
    · exact List.mem_cons_of_mem _ hin
    · exact List.mem_cons_of_mem _ hin

theorem strcpy_length (buf : List Char) (off : Nat) (src : List Char) (h : off ≤ buf.length) :
    (strcpy buf off src).length = max buf.length (off + (cString src).length + 1) := by
  unfold strcpy
  simp only [List.length_append, List.length_take, List.length_drop, List.length_cons,
    List.length_nil]
  omega

theorem cString_length_le (l : List Char) : (cString l).length ≤ l.length := by
  unfold cString
  exact (List.takeWhile_sublist _).length_le

theorem bbNameString_length (name : String) : (bbNameString name).length = name.length + 9 := by
  have hk : (cString name.toList).length ≤ name.length := cString_length_le name.toList
  have h7 : (cString "\ntrace:".toList).length = 7 := by decide
  have h1 : (cString "\n".toList).length = 1 := by decide
  unfold bbNameString
  simp only
  have e1 : (strcpy (List.replicate (name.length + 8) '\x00') 0 "\ntrace:".toList).length =
      name.length + 8 := by
    rw [strcpy_length _ _ _ (Nat.zero_le _), h7, List.length_replicate]; omega
  have e2 : (strcpy (strcpy (List.replicate (name.length + 8) '\x00') 0 "\ntrace:".toList) 7
      name.toList).length = name.length + 8 := by
    rw [strcpy_length _ _ _ (by rw [e1]; omega), e1]; omega
  rw [strcpy_length _ _ _ (by rw [e2]; omega), e2, h1]
  omega

/-- The call `strcpy(&buf[off], src)` leaves every index it does not write as
it was. -/
theorem strcpy_unwritten (buf : List Char) (off : Nat) (src : List Char)
    (h : off ≤ buf.length) (i : Nat) (hi : i ∉ strcpyWrites off src) :
    (strcpy buf off src)[i]? = buf[i]? := by
  have hi' : i < off ∨ off + (cString src).length + 1 ≤ i := by
    simp only [strcpyWrites, List.mem_range'_1, not_and, not_lt] at hi
    by_cases h1 : i < off
    · exact Or.inl h1
    · exact Or.inr (by have := hi (by omega); omega)
  unfold strcpy
  rcases hi' with h1 | h1
  · rw [List.append_assoc, List.getElem?_append_left (by simp; omega), List.getElem?_take]
    simp [h1]
  · rw [List.getElem?_append_right (by simp; omega), List.getElem?_drop]
    simp only [List.length_append, List.length_take, List.length_cons, List.length_nil]
    congr 1
    omega

/-- The call `strcpy(&buf[off], src)` writes the characters of `src` up to its
first NUL, and then a NUL, from the index `off` on. -/
theorem strcpy_written (buf : List Char) (off : Nat) (src : List Char)
    (h : off ≤ buf.length) (j : Nat) (hj : j < (cString src).length + 1) :
    (strcpy buf off src)[off + j]? = (cString src ++ ['\x00'])[j]? := by
  unfold strcpy
  rw [List.append_assoc, List.getElem?_append_right (by simp),
    List.getElem?_append_left (by simp; omega)]
  congr 1
  simp [Nat.min_eq_left h]

/-! ## Modules without an instruction in `main` -/

/-- The module after `printf_prototype`: unchanged when it has a function named
`printf`, and with the declaration of `printf` appended when it has none. -/
theorem printf_prototype_exact (M : Program) :
    ((∃ f ∈ M, f.name = "printf") ∧ (printf_prototype M).2 = M) ∨
      ((∀ f ∈ M, f.name ≠ "printf") ∧ (printf_prototype M).2 = M ++ [printfDecl]) := by
  unfold printf_prototype getOrInsertFunction
  split
  · next f h =>
    have hp : decide (f.name = "printf") = true :=
      List.find?_some (p := fun g : Function => decide (g.name = "printf")) h
    exact Or.inl ⟨⟨f, List.mem_of_find?_eq_some h, by simpa using hp⟩, rfl⟩
  · next h =>
    exact Or.inr ⟨by simpa using h, rfl⟩

/-! ## The properties of the pass -/

/-- Claim C1, evaluated on a `main` of one block `[other@1, ret@2]`: the copy
of `trace_begins` inside `findTraceLocations` ends as the address 1 of the
first instruction of `main`, but the caller's variable keeps the value it had.
When that value is 2, the `trace_start` call is inserted in front of the
second instruction, after the block entry call and the first instruction; when
it is 7, the address of no instruction, the run is undefined. -/
theorem start_reference_not_returned :
    hasOneMain progTwo = true ∧
    (findTraceLocations (rename_bbs (printf_prototype progTwo).2) 2).trace_begins = 1 ∧
    (runOnModule 2 progTwo).map (fun M => (allInsts M).map (fun i => (i.addr, i.kind))) =
      some [(4, .call (some ⟨"printf", true⟩) ["\ntrace:main_entry\n"]), (1, .other),
        (3, .call (some ⟨"printf", true⟩) ["trace_start\n"]),
        (5, .call (some ⟨"printf", true⟩) ["\ntrace_end\n"]), (2, .ret)] ∧
    runOnModule 7 progTwo = none := by
  decide

/-- Claim C2 fails as stated: a module with exactly one `main`, whose two
blocks are `[ret]` and `[phi]`, has two non-empty blocks and one block entry
point. -/
theorem block_entries_not_nonempty_blocks :
    hasOneMain progPhiOnly = true ∧
    (findTraceLocations progPhiOnly 0).trace_prints.length = 1 ∧
    nonEmptyBlocks progPhiOnly = 2 ∧
    (findTraceLocations progPhiOnly 0).trace_prints.length ≠ nonEmptyBlocks progPhiOnly := by
  decide

/-- Claim C2, amended: for every module, the number of block entry points
recorded by `findTraceLocations` is the number of blocks that hold at least
one instruction that is no phi node. -/
theorem block_entries_count (M : Program) (tb : Nat) :
    (findTraceLocations M tb).trace_prints.length = nonPhiBlocks M := by
  rw [trace_prints_eq, entryTargets, nonPhiBlocks, List.length_filterMap_eq_countP,
    List.countP_eq_length_filter]
  congr 2
  funext b
  cases h : firstNonPhi b.insts with
  | none =>
    have h1 : ∀ x ∈ b.insts, isPHINode x = true := by simpa [firstNonPhi] using h
    have h2 : (b.insts.any fun i => !isPHINode i) = false := by
      simpa [List.any_eq_false] using h1
    simp [h2]
  | some j =>
    have h1 : (b.insts.any fun i => !isPHINode i) = true := by
      rw [List.any_eq_true]
      exact ⟨j, (firstNonPhi_mem h).1, by simp [(firstNonPhi_mem h).2]⟩
    simp [h1]

/-- Claim C3: in a module whose instructions have distinct addresses, a block
with an instruction that is no phi node has exactly one block entry point, the
earliest such instruction of the block (only phi nodes come before it); a
block of phi nodes only, or an empty block, has none; and no block entry point
is a phi node. -/
theorem block_entry_targets (M : Program) (tb : Nat) (hM : (allAddrs M).Nodup) :
    (∀ b ∈ allBlocks M, (∃ i ∈ b.insts, isPHINode i = false) →
      ∃ pre i post, b.insts = pre ++ i :: post ∧ (∀ p ∈ pre, isPHINode p = true) ∧
        isPHINode i = false ∧
        (findTraceLocations M tb).trace_prints.filter (fun a => decide (a ∈ blockAddrs b)) =
          [i.addr]) ∧
    (∀ b ∈ allBlocks M, (∀ i ∈ b.insts, isPHINode i = true) →
      (findTraceLocations M tb).trace_prints.filter (fun a => decide (a ∈ blockAddrs b)) = []) ∧
    (∀ a ∈ (findTraceLocations M tb).trace_prints, ∀ i ∈ allInsts M, i.addr = a →
      isPHINode i = false) := by
  rw [trace_prints_eq]
  refine ⟨?_, ?_, entryTargets_not_phi hM⟩
  · rintro b hb ⟨i, hi, hp⟩
    rw [entryTargets_filter hM hb]
    cases hf : firstNonPhi b.insts with
    | none =>
      have : ∀ x ∈ b.insts, isPHINode x = true := by simpa [firstNonPhi] using hf
      rw [this i hi] at hp
      exact absurd hp (by decide)
    | some j =>
      obtain ⟨hpj, pre, post, hsplit, hpre⟩ := List.find?_eq_some.1 hf
      exact ⟨pre, j, post, hsplit, fun p hp => by simpa using hpre p hp, by simpa using hpj, rfl⟩
  · intro b hb hall
    rw [entryTargets_filter hM hb]
    have : firstNonPhi b.insts = none := by simpa [firstNonPhi] using hall
    simp [this]

/-- Witness for claim C3 on Scenario C, whose block is two phi nodes and a
return: its one block entry point is the return, at address 3. -/
theorem block_entry_targets_witness :
    (allAddrs progPhiStart).Nodup ∧
    (∀ b ∈ allBlocks progPhiStart, (∃ i ∈ b.insts, isPHINode i = false) →
      ∃ pre i post, b.insts = pre ++ i :: post ∧ (∀ p ∈ pre, isPHINode p = true) ∧
        isPHINode i = false ∧
        (findTraceLocations progPhiStart 0).trace_prints.filter
          (fun a => decide (a ∈ blockAddrs b)) = [i.addr]) ∧
    (findTraceLocations progPhiStart 0).trace_prints = [3] :=
  ⟨by decide, (block_entry_targets progPhiStart 0 (by decide)).1, by decide⟩

/-- Claim C4: in a module whose instructions have distinct addresses, every
return of a function named `main` is exactly once in `trace_ends` and not in
`func_returns`, every return of another function is exactly once in
`func_returns` and not in `trace_ends`, and every entry of `func_returns` is a
return of a function that is not named `main`. -/
theorem returns_classified (M : Program) (tb : Nat) (hM : (allAddrs M).Nodup) :
    (∀ f ∈ M, ∀ b ∈ f.blocks, ∀ i ∈ b.insts, i.kind = InstKind.ret →
      (f.name = "main" →
        (findTraceLocations M tb).trace_ends.count i.addr = 1 ∧
        i.addr ∉ (findTraceLocations M tb).func_returns) ∧
      (f.name ≠ "main" →
        (findTraceLocations M tb).func_returns.count i.addr = 1 ∧
        i.addr ∉ (findTraceLocations M tb).trace_ends)) ∧
    (∀ a ∈ (findTraceLocations M tb).func_returns,
      ∃ f ∈ M, ∃ b ∈ f.blocks, ∃ i ∈ b.insts,
        i.addr = a ∧ i.kind = InstKind.ret ∧ f.name ≠ "main") := by
  rw [trace_ends_eq, func_returns_eq]
  refine ⟨?_, ?_⟩
  · intro f hf b hb i hi hk
    have hp : (f.name, i) ∈ tagged M := mem_tagged.2 ⟨f, hf, b, hb, i, hi, rfl⟩
    refine ⟨fun hm => ⟨?_, ?_⟩, fun hm => ⟨?_, ?_⟩⟩
    · exact count_pointsOf hM hp (by simp [isEnd, hk, hm])
    · rw [show i.addr = (f.name, i).2.addr from rfl, addr_mem_pointsOf hM hp]
      simp [isFuncReturn, hk, hm]
    · exact count_pointsOf hM hp (by simp [isFuncReturn, hk, hm])
    · rw [show i.addr = (f.name, i).2.addr from rfl, addr_mem_pointsOf hM hp]
      simp [isEnd, hk, hm]
  · intro a ha
    obtain ⟨p, hp, hc, rfl⟩ := mem_pointsOf.1 ha
    obtain ⟨f, hf, b, hb, i, hi, rfl⟩ := mem_tagged.1 hp
    refine ⟨f, hf, b, hb, i, hi, rfl, ?_⟩
    rcases i with ⟨a, k⟩
    cases k <;> simp_all [isFuncReturn]

/-- Witness for claim C4 on Scenario A: the return of `foo` is the one entry of
`func_returns`, the return of `main` the one entry of `trace_ends`. -/
theorem returns_classified_witness :
    (allAddrs progScenarioA).Nodup ∧
    (∀ a ∈ (findTraceLocations progScenarioA 0).func_returns,
      ∃ f ∈ progScenarioA, ∃ b ∈ f.blocks, ∃ i ∈ b.insts,
        i.addr = a ∧ i.kind = InstKind.ret ∧ f.name ≠ "main") ∧
    (findTraceLocations progScenarioA 0).func_returns = [3] ∧
    (findTraceLocations progScenarioA 0).trace_ends = [2] :=
  ⟨by decide, (returns_classified progScenarioA 0 (by decide)).2, by decide, by decide⟩

/-- Claim C5: in a module whose instructions have distinct addresses, a call
whose callee is resolved, not named `exit` and no declaration is exactly once
in `func_calls` and not in `trace_ends`; a call whose callee is resolved and
named `exit` is exactly once in `trace_ends` and not in `func_calls`; a call
whose callee is not resolved, or is a declaration not named `exit`, is in
neither. -/
theorem calls_classified (M : Program) (tb : Nat) (hM : (allAddrs M).Nodup) :
    ∀ f ∈ M, ∀ b ∈ f.blocks, ∀ i ∈ b.insts, ∀ callee args, i.kind = InstKind.call callee args →
      (∀ fn, callee = some fn → fn.name ≠ "exit" → fn.isDeclaration = false →
        (findTraceLocations M tb).func_calls.count i.addr = 1 ∧
        i.addr ∉ (findTraceLocations M tb).trace_ends) ∧
      (∀ fn, callee = some fn → fn.name = "exit" →
        (findTraceLocations M tb).trace_ends.count i.addr = 1 ∧
        i.addr ∉ (findTraceLocations M tb).func_calls) ∧
      ((callee = none ∨ ∃ fn, callee = some fn ∧ fn.isDeclaration = true ∧ fn.name ≠ "exit") →
        i.addr ∉ (findTraceLocations M tb).func_calls ∧
        i.addr ∉ (findTraceLocations M tb).trace_ends) := by
  rw [trace_ends_eq, func_calls_eq]
  intro f hf b hb i hi callee args hk
  have hp : (f.name, i) ∈ tagged M := mem_tagged.2 ⟨f, hf, b, hb, i, hi, rfl⟩
  have hin : ∀ c : String × Instruction → Bool,
      i.addr ∈ pointsOf c M ↔ c (f.name, i) = true := fun c => addr_mem_pointsOf hM hp
  refine ⟨?_, ?_, ?_⟩
  · rintro fn rfl hne hd
    refine ⟨count_pointsOf hM hp (by simp [isFuncCall, hk, hne, hd]), ?_⟩
    rw [hin]; simp [isEnd, hk, hne]
  · rintro fn rfl he
    refine ⟨count_pointsOf hM hp (by simp [isEnd, hk, he]), ?_⟩
    rw [hin]; simp [isFuncCall, hk, he]
  · rintro (rfl | ⟨fn, rfl, hd, hne⟩)
    · rw [hin, hin]; simp [isFuncCall, isEnd, hk]
    · rw [hin, hin]; simp [isFuncCall, isEnd, hk, hd, hne]

/-- Witness for claim C5 on Scenario A: the call of `foo` is the one entry of
`func_calls`. -/
theorem calls_classified_witness :
    (allAddrs progScenarioA).Nodup ∧
    (∀ f ∈ progScenarioA, ∀ b ∈ f.blocks, ∀ i ∈ b.insts, ∀ callee args,
      i.kind = InstKind.call callee args →
      (∀ fn, callee = some fn → fn.name ≠ "exit" → fn.isDeclaration = false →
        (findTraceLocations progScenarioA 0).func_calls.count i.addr = 1 ∧
        i.addr ∉ (findTraceLocations progScenarioA 0).trace_ends) ∧
      (∀ fn, callee = some fn → fn.name = "exit" →
        (findTraceLocations progScenarioA 0).trace_ends.count i.addr = 1 ∧
        i.addr ∉ (findTraceLocations progScenarioA 0).func_calls) ∧
      ((callee = none ∨ ∃ fn, callee = some fn ∧ fn.isDeclaration = true ∧ fn.name ≠ "exit") →
        i.addr ∉ (findTraceLocations progScenarioA 0).func_calls ∧
        i.addr ∉ (findTraceLocations progScenarioA 0).trace_ends)) ∧
    (findTraceLocations progScenarioA 0).func_calls = [1] :=
  ⟨by decide, calls_classified progScenarioA 0 (by decide), by decide⟩

/-- Claim C6 fails on the code, on Scenario C: every block has its phi nodes
first and there is one `main`; the start reference that `findTraceLocations`
computes is the address 1 of a phi node, because the start test is not under
the phi guard of the block entry test, and the run with that start reference
puts the `trace_start` call in front of the two phi nodes, so that the block no
longer has its phi nodes first. -/
theorem phi_first_broken_by_start :
    (∀ b ∈ allBlocks progPhiStart, phiFirst b.insts = true) ∧
    hasOneMain progPhiStart = true ∧
    (findTraceLocations (rename_bbs (printf_prototype progPhiStart).2) 1).trace_begins = 1 ∧
    (runOnModule 1 progPhiStart).map (fun M => (allBlocks M).map
      (fun b => (b.insts.map (fun i => (i.addr, isPHINode i)), phiFirst b.insts))) =
      some [([(4, false), (1, true), (2, true), (5, false), (6, false), (3, false)], false)] := by
  decide

/-- In a module whose instructions have distinct addresses and whose blocks all
have their phi nodes first, no address in the four vectors of
`findTraceLocations` is the address of a phi node, and when the `trace_start`
call is inserted in front of an instruction that is no phi node, the run is
defined and every block of the result has its phi nodes first. -/
theorem phi_first_preserved (M : Program) (tb : Nat) (hM : (allAddrs M).Nodup)
    (hphi : ∀ b ∈ allBlocks M, phiFirst b.insts = true)
    (htb : ∃ i ∈ allInsts M, i.addr = tb ∧ isPHINode i = false) :
    (∀ a ∈ located (findTraceLocations M tb), ∀ i ∈ allInsts M, i.addr = a →
      isPHINode i = false) ∧
    ∃ M1, runOnModule tb M = some M1 ∧ ∀ b ∈ allBlocks M1, phiFirst b.insts = true := by
  refine ⟨located_not_phi hM tb, ?_⟩
  obtain ⟨i0, hi0, hi0a, hi0p⟩ := htb
  have htbM : tb ∈ allAddrs M := hi0a ▸ List.mem_map_of_mem _ hi0
  obtain ⟨M1, h1, h2⟩ := runOnModule_instrumented M tb htbM
  refine ⟨M1, h1, fun b1 hb1 => ?_⟩
  obtain ⟨b, hb, hr⟩ := forall₂_exists_left (progRel_allBlocks h2) b1 hb1
  have hbi : b.insts ∈ (allBlocks M).map (fun b => b.insts) := by
    rw [← blocks_prepared]
    exact List.mem_map_of_mem _ hb
  obtain ⟨b0, hb0, hb0i⟩ := List.mem_map.1 hbi
  refine hr.2.2.2.2 (hb0i ▸ hphi b0 hb0) ?_
  intro t ht i hi hit
  have hiM : i ∈ allInsts M := mem_allInsts.2 ⟨b0, hb0, hb0i ▸ hi⟩
  rw [insertions_fst] at ht
  rcases List.mem_cons.1 ht with rfl | ht1
  · rw [allInsts_inj hM hiM hi0 (hit.trans hi0a.symm)]
    exact hi0p
  · exact located_not_phi hM tb t ht1 i hiM hit

/-- The preceding theorem on Scenario C, whose block is two phi nodes and a
return, with the `trace_start` call in front of the return: the phi nodes stay
first. -/
theorem phi_first_preserved_witness :
    (allAddrs progPhiStart).Nodup ∧
    (∀ b ∈ allBlocks progPhiStart, phiFirst b.insts = true) ∧
    (∃ i ∈ allInsts progPhiStart, i.addr = 3 ∧ isPHINode i = false) ∧
    (∃ M1, runOnModule 3 progPhiStart = some M1 ∧
      ∀ b ∈ allBlocks M1, phiFirst b.insts = true) ∧
    (runOnModule 3 progPhiStart).map (fun M => (allBlocks M).map
      (fun b => (b.insts.map (fun i => (i.addr, isPHINode i)), phiFirst b.insts))) =
      some [([(1, true), (2, true), (4, false), (5, false), (6, false), (3, false)], true)] :=
  ⟨by decide, by decide, by decide,
    (phi_first_preserved progPhiStart 3 (by decide) (by decide) (by decide)).2, by decide⟩

/-- Claim C7 fails as stated, on Scenario B: the module has one function,
`main`, the start reference 1 is the one `findTraceLocations` computes, and the
module has two functions after the run, `main` and a declaration of `printf`. -/
theorem printf_declaration_added :
    hasOneMain progMainRet = true ∧
    (findTraceLocations (rename_bbs (printf_prototype progMainRet).2) 1).trace_begins = 1 ∧
    progMainRet.map (fun f => f.name) = ["main"] ∧
    (runOnModule 1 progMainRet).map (fun M => M.map (fun f => f.name)) =
      some ["main", "printf"] := by
  decide

/-- Claim C7, amended: when the start reference of `runOnModule` is the address
of an instruction of the module, the run is defined; the functions of the
result are those of the module, in order and with their blocks in order,
followed by a declaration of `printf` when the module had no function of that
name; and every block of the result is the block it was with one sink call
more for every entry of the start reference and the four vectors that is the
address of one of its instructions: the instructions with an address of the
module are those of the block in their order, all others are sink calls. -/
theorem original_instructions_kept (M : Program) (tb : Nat) (htb : tb ∈ allAddrs M) :
    ∃ M1 ext, runOnModule tb M = some M1 ∧
      (((∃ f ∈ M, f.name = "printf") ∧ ext = []) ∨
        ((∀ f ∈ M, f.name ≠ "printf") ∧ ext = [printfDecl])) ∧
      ProgRel (Grown (allAddrs M) (tb :: located (findTraceLocations M tb))) (M ++ ext) M1 := by
  obtain ⟨M1, h1, h2⟩ := runOnModule_instrumented M tb htb
  have hrel : ProgRel (Grown (allAddrs M) (tb :: located (findTraceLocations M tb)))
      (printf_prototype M).2 M1 := by
    rw [← insertions_fst (rename_bbs (printf_prototype M).2)]
    exact progRel_comp (rename_bbs_rel _) h2
      (fun a b c hab hbc => grown_of_instrumented hab hbc)
  rcases printf_prototype_exact M with ⟨hex, h⟩ | ⟨hno, h⟩
  · exact ⟨M1, [], h1, Or.inl ⟨hex, rfl⟩, by rw [List.append_nil]; rwa [h] at hrel⟩
  · exact ⟨M1, [printfDecl], h1, Or.inr ⟨hno, rfl⟩, by rwa [h] at hrel⟩

/-- Witness for the amended claim C7 on Scenario B with the start reference 1. -/
theorem original_instructions_kept_witness :
    1 ∈ allAddrs progMainRet ∧
    ∃ M1 ext, runOnModule 1 progMainRet = some M1 ∧
      (((∃ f ∈ progMainRet, f.name = "printf") ∧ ext = []) ∨
        ((∀ f ∈ progMainRet, f.name ≠ "printf") ∧ ext = [printfDecl])) ∧
      ProgRel (Grown (allAddrs progMainRet) (1 :: located (findTraceLocations progMainRet 1)))
        (progMainRet ++ ext) M1 :=
  ⟨by decide, original_instructions_kept progMainRet 1 (by decide)⟩

/-- Claim C9: `rename_bbs` keeps the functions, their names and declaration
flags; a declaration is left as it is; in every other function the blocks keep
their number, order and instructions, the first is named after the function
with `_entry` appended and every later one with `_bb` appended. -/
theorem rename_bbs_names (M : Program) :
    List.Forall₂ (fun f f1 => f1.name = f.name ∧ f1.isDeclaration = f.isDeclaration ∧
      (f.isDeclaration = true → f1 = f) ∧
      (f.isDeclaration = false → Renamed f.name f.blocks f1.blocks)) M (rename_bbs M) := by
  unfold rename_bbs
  rw [List.forall₂_map_right_iff, List.forall₂_same]
  intro f _
  unfold renameFunction
  cases hd : f.isDeclaration with
  | true => simp [hd]
  | false =>
    simp only [if_true, true_and, Bool.false_eq_true, false_implies, forall_true_left]
    cases hb : f.blocks with
    | nil => simp [renameBlocks, Renamed]
    | cons b r =>
      simp only [renameBlocks, if_true, Renamed]
      exact ⟨by simp [setName, String.append_assoc], rfl, renameBlocks_false f.name r⟩

/-- Claim C10, evaluated on Scenario B: the first run is undefined when the
start reference is the address 7 of no instruction, and so is a second run
after a first run with the start reference 1.  With the start reference 1 in
both runs the module has 3 sink calls after one run and 6 after two. -/
theorem second_run_undefined :
    hasOneMain progMainRet = true ∧
    runOnModule 7 progMainRet = none ∧
    ((runOnModule 1 progMainRet).bind (runOnModule 7)) = none ∧
    ((runOnModule 1 progMainRet).map (fun M => sinkCalls (allInsts M))) = some 3 ∧
    (((runOnModule 1 progMainRet).bind (runOnModule 1)).map
      (fun M => sinkCalls (allInsts M))) = some 6 := by
  decide

/-- Claim C11 fails as stated, on Scenario A: the module has no sink call, the
four vectors of `findTraceLocations` hold five points, the start reference 1 is
the one `findTraceLocations` computes, and the module has six sink calls after
the run with that start reference. -/
theorem scenarioA_six_sink_calls :
    hasOneMain progScenarioA = true ∧
    (findTraceLocations (rename_bbs (printf_prototype progScenarioA).2) 1).trace_begins = 1 ∧
    sinkCalls (allInsts progScenarioA) = 0 ∧
    (located (findTraceLocations progScenarioA 1)).length = 5 ∧
    (runOnModule 1 progScenarioA).map (fun M => sinkCalls (allInsts M)) = some 6 := by
  decide

/-- Claim C11, amended: on Scenario A the four vectors hold five points, and
whenever the start reference of `runOnModule` is the address of one of the
three instructions the run is defined and inserts six sink calls, the
`trace_start` call and one for each of the five points: the result has six sink
calls and nine instructions. -/
theorem scenarioA_total (tb : Nat) (htb : tb ∈ allAddrs progScenarioA) :
    (located (findTraceLocations progScenarioA tb)).length = 5 ∧
    (runOnModule tb progScenarioA).map
      (fun M => (sinkCalls (allInsts M), (allInsts M).length)) = some (6, 9) := by
  have h : tb = 1 ∨ tb = 2 ∨ tb = 3 := by
    simpa [allAddrs, allInsts, allBlocks, progScenarioA] using htb
  rcases h with rfl | rfl | rfl <;> decide

/-- Witness for the amended claim C11 with the start reference 2. -/
theorem scenarioA_total_witness :
    2 ∈ allAddrs progScenarioA ∧
    (located (findTraceLocations progScenarioA 2)).length = 5 ∧
    (runOnModule 2 progScenarioA).map
      (fun M => (sinkCalls (allInsts M), (allInsts M).length)) = some (6, 9) :=
  ⟨by decide, scenarioA_total 2 (by decide)⟩

/-- Claim C12 fails on the code, evaluated on the block name `main_entry` of
Scenario A: the buffer is allocated with 18 characters, which after the three
calls of `strcpy` hold the 18 characters of the message and no NUL; the NUL
that ends the message is the one character past the buffer, and the message is
as the claim says only when that character is read back.  The vector of the
block entry points is `[1, 3]`, but the run whose start reference is 7, the
address of no instruction, is undefined. -/
theorem entry_message_not_terminated :
    "main_entry".length + 8 = 18 ∧
    (bbNameString "main_entry").take 18 = "\ntrace:main_entry\n".toList ∧
    '\x00' ∉ (bbNameString "main_entry").take 18 ∧
    (bbNameString "main_entry").drop 18 = ['\x00'] ∧
    blockMessage "main_entry" = "\ntrace:main_entry\n" ∧
    (findTraceLocations progScenarioA 7).trace_prints = [1, 3] ∧
    runOnModule 7 progScenarioA = none := by
  decide

/-- In a module whose instructions have distinct addresses and whose names
hold no NUL, with the character that `strcpy` writes past the buffer read
back: the message of the block entry print for a target is `"\ntrace:"`, the
name of the renamed block that holds the target, and a newline; for a function
that is no declaration this is its name followed by `_entry` for the first
block and by `_bb` for every later block; and when the start reference is the
address of an instruction, the run is defined and every block entry target has
directly in front of it the `trace_start` call when it is the start reference,
then the sink call with that message, then the calls of the return, call and
end loops for it. -/
theorem block_entry_messages (M : Program) (tb : Nat) (hM : (allAddrs M).Nodup)
    (hN : namesNoNul M) (htb : tb ∈ allAddrs M) :
    (∀ b ∈ allBlocks (rename_bbs (printf_prototype M).2), ∀ t ∈ blockAddrs b,
      entryMessage (rename_bbs (printf_prototype M).2) t = "\ntrace:" ++ b.name ++ "\n") ∧
    (∀ f ∈ M, f.isDeclaration = false → ∀ b0 r, f.blocks = b0 :: r →
      (∀ t ∈ blockAddrs b0,
        entryMessage (rename_bbs (printf_prototype M).2) t =
          "\ntrace:" ++ f.name ++ "_entry\n") ∧
      (∀ c ∈ r, ∀ t ∈ blockAddrs c,
        entryMessage (rename_bbs (printf_prototype M).2) t =
          "\ntrace:" ++ f.name ++ "_bb\n")) ∧
    ∃ M1, runOnModule tb M = some M1 ∧
      ProgRel (fun b b1 => ∀ i ∈ b.insts, i.addr ∈ (findTraceLocations M tb).trace_prints →
          ∃ pre g post, b1.insts = pre ++ g ++ i :: post ∧
            (∀ x ∈ g, x.addr ∉ allAddrs M) ∧
            g.map (fun x => x.kind) =
              (startMessages tb i.addr ++
                ("\ntrace:" ++ b.name ++ "\n") ::
                  tailMessages (findTraceLocations M tb) i.addr).map
                (sinkKind (printf_prototype M).1))
        (rename_bbs (printf_prototype M).2) M1 := by
  have hM1 : (allAddrs (rename_bbs (printf_prototype M).2)).Nodup := by
    rwa [allAddrs_prepared]
  have hmsg : ∀ b ∈ allBlocks (rename_bbs (printf_prototype M).2), ∀ t ∈ blockAddrs b,
      entryMessage (rename_bbs (printf_prototype M).2) t = "\ntrace:" ++ b.name ++ "\n" :=
    fun b hb t ht => entryMessage_eq hM1 hb ht (namesNoNul_prepared hN b hb)
  refine ⟨hmsg, ?_, ?_⟩
  · intro f hf hd b0 r hbl
    have hfb : (renameFunction f).blocks = renameBlocks f.name true f.blocks := by
      simp [renameFunction, hd]
    have e1 : "_" ++ ("entry" ++ "\n") = "_entry\n" := by decide
    have e2 : "_" ++ ("bb" ++ "\n") = "_bb\n" := by decide
    refine ⟨fun t ht => ?_, fun c hc t ht => ?_⟩
    · have hb : setName b0 (f.name ++ "_" ++ "entry") ∈
          allBlocks (rename_bbs (printf_prototype M).2) :=
        mem_allBlocks.2 ⟨_, mem_prepared hf, by rw [hfb, hbl]; simp [renameBlocks]⟩
      rw [hmsg _ hb t ht]
      simp only [setName, String.append_assoc, e1]
    · have hb : setName c (f.name ++ "_" ++ "bb") ∈
          allBlocks (rename_bbs (printf_prototype M).2) :=
        mem_allBlocks.2 ⟨_, mem_prepared hf, by
          rw [hfb]
          exact renameBlocks_mem_later f.name true f.blocks c (by rw [hbl]; exact hc)⟩
      rw [hmsg _ hb t ht]
      simp only [setName, String.append_assoc, e2]
  · obtain ⟨M1, h1, h2⟩ := runOnModule_groups M tb hM htb
    refine ⟨M1, h1, progRel_mono_mem h2 ?_⟩
    intro b hb b1 h i hi hip
    obtain ⟨pre, g, post, e1, e2, e3⟩ := h i hi
    refine ⟨pre, g, post, e1, e2, ?_⟩
    have hc : (findTraceLocations M tb).trace_prints.count i.addr = 1 := by
      rw [trace_prints_eq] at hip ⊢
      exact List.count_eq_one_of_mem (entryTargets_nodup hM) hip
    rw [e3, messagesAt_insertions, hc, hmsg b hb i.addr (List.mem_map_of_mem _ hi)]
    rfl

/-- The preceding theorem on Scenario A with the start reference 1: the block
entry messages of the two blocks. -/
theorem block_entry_messages_witness :
    (allAddrs progScenarioA).Nodup ∧ namesNoNul progScenarioA ∧ 1 ∈ allAddrs progScenarioA ∧
    (∀ b ∈ allBlocks (rename_bbs (printf_prototype progScenarioA).2), ∀ t ∈ blockAddrs b,
      entryMessage (rename_bbs (printf_prototype progScenarioA).2) t =
        "\ntrace:" ++ b.name ++ "\n") ∧
    entryMessage (rename_bbs (printf_prototype progScenarioA).2) 1 = "\ntrace:main_entry\n" ∧
    entryMessage (rename_bbs (printf_prototype progScenarioA).2) 3 = "\ntrace:foo_entry\n" :=
  ⟨by decide, by unfold namesNoNul noNul; decide, by decide,
    (block_entry_messages progScenarioA 1 (by decide) (by unfold namesNoNul noNul; decide)
      (by decide)).1, by decide, by decide⟩

/-- Claim C13: in a module whose instructions have distinct addresses, each of
the four vectors of `findTraceLocations` is a sublist of the addresses of the
instructions in scan order, has no address twice, and does not depend on the
value passed for `trace_begins`. -/
theorem vectors_in_scan_order (M : Program) (tb tb1 : Nat) (hM : (allAddrs M).Nodup) :
    ((findTraceLocations M tb).trace_prints.Sublist (allAddrs M) ∧
      (findTraceLocations M tb).func_returns.Sublist (allAddrs M) ∧
      (findTraceLocations M tb).func_calls.Sublist (allAddrs M) ∧
      (findTraceLocations M tb).trace_ends.Sublist (allAddrs M)) ∧
    ((findTraceLocations M tb).trace_prints.Nodup ∧
      (findTraceLocations M tb).func_returns.Nodup ∧
      (findTraceLocations M tb).func_calls.Nodup ∧
      (findTraceLocations M tb).trace_ends.Nodup) ∧
    ((findTraceLocations M tb1).trace_prints = (findTraceLocations M tb).trace_prints ∧
      (findTraceLocations M tb1).func_returns = (findTraceLocations M tb).func_returns ∧
      (findTraceLocations M tb1).func_calls = (findTraceLocations M tb).func_calls ∧
      (findTraceLocations M tb1).trace_ends = (findTraceLocations M tb).trace_ends) := by
  simp only [trace_prints_eq, func_returns_eq, func_calls_eq, trace_ends_eq, and_self, and_true]
  exact ⟨⟨entryTargets_sublist M, pointsOf_sublist _ M, pointsOf_sublist _ M,
    pointsOf_sublist _ M⟩, entryTargets_nodup hM, pointsOf_nodup _ hM, pointsOf_nodup _ hM,
    pointsOf_nodup _ hM⟩

/-- Witness for claim C13 on Scenario A, whose scan order is 1, 2, 3. -/
theorem vectors_in_scan_order_witness :
    (allAddrs progScenarioA).Nodup ∧
    ((findTraceLocations progScenarioA 0).trace_prints.Sublist (allAddrs progScenarioA) ∧
      (findTraceLocations progScenarioA 0).func_returns.Sublist (allAddrs progScenarioA) ∧
      (findTraceLocations progScenarioA 0).func_calls.Sublist (allAddrs progScenarioA) ∧
      (findTraceLocations progScenarioA 0).trace_ends.Sublist (allAddrs progScenarioA)) ∧
    allAddrs progScenarioA = [1, 2, 3] ∧
    (findTraceLocations progScenarioA 0).trace_prints = [1, 3] :=
  ⟨by decide, (vectors_in_scan_order progScenarioA 0 0 (by decide)).1, by decide, by decide⟩

/-- Claim C14: in a module whose instructions have distinct addresses, the
vectors `func_returns`, `func_calls` and `trace_ends` are pairwise disjoint and
an address is at most once in the three taken together, so the return, call
and end loops make at most one insertion for it; and when the start reference
is the address of an instruction, the run is defined and the calls directly in
front of an original instruction are the `trace_start` call when it is the
start reference, its block entry calls, and at most one call of these three
loops. -/
theorem return_call_end_disjoint (M : Program) (tb : Nat) (hM : (allAddrs M).Nodup) :
    (∀ a ∈ (findTraceLocations M tb).func_returns,
      a ∉ (findTraceLocations M tb).func_calls ∧ a ∉ (findTraceLocations M tb).trace_ends) ∧
    (∀ a ∈ (findTraceLocations M tb).func_calls, a ∉ (findTraceLocations M tb).trace_ends) ∧
    (∀ a, (findTraceLocations M tb).func_returns.count a +
      ((findTraceLocations M tb).func_calls.count a +
        (findTraceLocations M tb).trace_ends.count a) ≤ 1) ∧
    (∀ a, (tailMessages (findTraceLocations M tb) a).length ≤ 1) ∧
    (tb ∈ allAddrs M → ∃ M1, runOnModule tb M = some M1 ∧
      ProgRel (fun b b1 => ∀ i ∈ b.insts, ∃ pre g post, b1.insts = pre ++ g ++ i :: post ∧
          (∀ x ∈ g, x.addr ∉ allAddrs M) ∧
          g.map (fun x => x.kind) =
            (startMessages tb i.addr ++
              (List.replicate ((findTraceLocations M tb).trace_prints.count i.addr)
                  (entryMessage (rename_bbs (printf_prototype M).2) i.addr) ++
                tailMessages (findTraceLocations M tb) i.addr)).map
              (sinkKind (printf_prototype M).1))
        (rename_bbs (printf_prototype M).2) M1) := by
  refine ⟨?_, ?_, tail_count_le_one hM tb, ?_, ?_⟩
  · intro a ha
    rw [func_returns_eq] at ha
    rw [func_calls_eq, trace_ends_eq]
    exact ⟨pointsOf_disjoint isFuncReturn_not_call hM a ha,
      pointsOf_disjoint isFuncReturn_not_end hM a ha⟩
  · intro a ha
    rw [func_calls_eq] at ha
    rw [trace_ends_eq]
    exact pointsOf_disjoint isFuncCall_not_end hM a ha
  · intro a
    have := tail_count_le_one hM tb a
    simpa [tailMessages] using this
  · intro htb
    obtain ⟨M1, h1, h2⟩ := runOnModule_groups M tb hM htb
    refine ⟨M1, h1, progRel_mono h2 ?_⟩
    intro b b1 h i hi
    obtain ⟨pre, g, post, e1, e2, e3⟩ := h i hi
    exact ⟨pre, g, post, e1, e2, by rw [e3, messagesAt_insertions]⟩

/-- Witness for claim C14 on Scenario A. -/
theorem return_call_end_disjoint_witness :
    (allAddrs progScenarioA).Nodup ∧
    (∀ a, (findTraceLocations progScenarioA 0).func_returns.count a +
      ((findTraceLocations progScenarioA 0).func_calls.count a +
        (findTraceLocations progScenarioA 0).trace_ends.count a) ≤ 1) ∧
    (findTraceLocations progScenarioA 0).func_returns = [3] ∧
    (findTraceLocations progScenarioA 0).func_calls = [1] ∧
    (findTraceLocations progScenarioA 0).trace_ends = [2] :=
  ⟨by decide, (return_call_end_disjoint progScenarioA 0 (by decide)).2.2.1, by decide,
    by decide, by decide⟩

/-- Claim C15 fails on the code, evaluated on Scenario A: the call of `foo`, at
address 1, is a block entry target and a call target, but the run whose start
reference is 7, the address of no instruction, is undefined, so that there are
no sink calls to be in order.  With the start reference 1 the run is defined
and the calls in front of address 1 are `trace_start`, the block entry call
and the call print, in this order. -/
theorem shared_target_run_undefined :
    hasOneMain progScenarioA = true ∧
    1 ∈ (findTraceLocations progScenarioA 7).trace_prints ∧
    1 ∈ (findTraceLocations progScenarioA 7).func_calls ∧
    runOnModule 7 progScenarioA = none ∧
    (runOnModule 1 progScenarioA).map (fun M => (allBlocks M).map (fun b =>
      b.insts.map (fun i => (i.addr, i.kind)))) =
      some [[(4, sinkKind ⟨"printf", true⟩ "trace_start\n"),
          (5, sinkKind ⟨"printf", true⟩ "\ntrace:main_entry\n"),
          (8, sinkKind ⟨"printf", true⟩ "\ntrace:call\n"),
          (1, .call (some ⟨"foo", false⟩) []),
          (9, sinkKind ⟨"printf", true⟩ "\ntrace_end\n"), (2, .ret)],
        [(6, sinkKind ⟨"printf", true⟩ "\ntrace:foo_entry\n"),
          (7, sinkKind ⟨"printf", true⟩ "\ntrace:return\n"), (3, .ret)]] := by
  decide

/-- In a module whose instructions have distinct addresses, when the start
reference is the address of an instruction the run is defined, and every
instruction that is a block entry target and also in `func_returns`,
`func_calls` or `trace_ends` has directly in front of it, with no original
instruction in between, the `trace_start` call when it is the start reference,
then the block entry call, then the call of its return, call or end loop. -/
theorem entry_call_first (M : Program) (tb : Nat) (hM : (allAddrs M).Nodup)
    (htb : tb ∈ allAddrs M) :
    ∃ M1, runOnModule tb M = some M1 ∧
      ProgRel (fun b b1 => ∀ i ∈ b.insts, i.addr ∈ (findTraceLocations M tb).trace_prints →
          (i.addr ∈ (findTraceLocations M tb).func_returns ∨
            i.addr ∈ (findTraceLocations M tb).func_calls ∨
            i.addr ∈ (findTraceLocations M tb).trace_ends) →
          ∃ pre g post, b1.insts = pre ++ g ++ i :: post ∧
            (∀ x ∈ g, x.addr ∉ allAddrs M) ∧
            g.map (fun x => x.kind) =
              (startMessages tb i.addr ++
                [entryMessage (rename_bbs (printf_prototype M).2) i.addr,
                  categoryMessage (findTraceLocations M tb) i.addr]).map
                (sinkKind (printf_prototype M).1))
        (rename_bbs (printf_prototype M).2) M1 := by
  obtain ⟨M1, h1, h2⟩ := runOnModule_groups M tb hM htb
  refine ⟨M1, h1, progRel_mono h2 ?_⟩
  intro b b1 h i hi hip hcat
  obtain ⟨pre, g, post, e1, e2, e3⟩ := h i hi
  refine ⟨pre, g, post, e1, e2, ?_⟩
  have hc : (findTraceLocations M tb).trace_prints.count i.addr = 1 := by
    rw [trace_prints_eq] at hip ⊢
    exact List.count_eq_one_of_mem (entryTargets_nodup hM) hip
  rw [e3, messagesAt_insertions, hc, tailMessages_eq hM tb hcat]
  rfl

/-- The preceding theorem on Scenario A with the start reference 1: the calls
in the block of `main` after the run. -/
theorem entry_call_first_witness :
    (allAddrs progScenarioA).Nodup ∧ 1 ∈ allAddrs progScenarioA ∧
    (∃ M1, runOnModule 1 progScenarioA = some M1 ∧
      ProgRel (fun b b1 => ∀ i ∈ b.insts,
          i.addr ∈ (findTraceLocations progScenarioA 1).trace_prints →
          (i.addr ∈ (findTraceLocations progScenarioA 1).func_returns ∨
            i.addr ∈ (findTraceLocations progScenarioA 1).func_calls ∨
            i.addr ∈ (findTraceLocations progScenarioA 1).trace_ends) →
          ∃ pre g post, b1.insts = pre ++ g ++ i :: post ∧
            (∀ x ∈ g, x.addr ∉ allAddrs progScenarioA) ∧
            g.map (fun x => x.kind) =
              (startMessages 1 i.addr ++
                [entryMessage (rename_bbs (printf_prototype progScenarioA).2) i.addr,
                  categoryMessage (findTraceLocations progScenarioA 1) i.addr]).map
                (sinkKind (printf_prototype progScenarioA).1))
        (rename_bbs (printf_prototype progScenarioA).2) M1) ∧
    (runOnModule 1 progScenarioA).map (fun M => (allBlocks M).map (fun b =>
      b.insts.map (fun i => (i.addr, i.kind)))) =
      some [[(4, sinkKind ⟨"printf", true⟩ "trace_start\n"),
          (5, sinkKind ⟨"printf", true⟩ "\ntrace:main_entry\n"),
          (8, sinkKind ⟨"printf", true⟩ "\ntrace:call\n"),
          (1, .call (some ⟨"foo", false⟩) []),
          (9, sinkKind ⟨"printf", true⟩ "\ntrace_end\n"), (2, .ret)],
        [(6, sinkKind ⟨"printf", true⟩ "\ntrace:foo_entry\n"),
          (7, sinkKind ⟨"printf", true⟩ "\ntrace:return\n"), (3, .ret)]] :=
  ⟨by decide, by decide, entry_call_first progScenarioA 1 (by decide) (by decide), by decide⟩

/-- Claim C16 fails on the code, for every block name: the third `strcpy`
writes the terminating NUL at the index `name.length + 8`, which is the size of
the buffer and so one past its last index; hence not every index written is
below the size.  No index written is larger than that one, and the buffer of
the embedding ends with `name.length + 9` characters. -/
theorem message_buffer_overrun (name : String) :
    name.length + 8 ∈ bbNameWrites name ∧
    (¬ ∀ i ∈ bbNameWrites name, i < name.length + 8) ∧
    (∀ i ∈ bbNameWrites name, i ≤ name.length + 8) ∧
    (bbNameString name).length = name.length + 9 := by
  have hk : (cString name.toList).length ≤ name.length := cString_length_le name.toList
  have h7 : (cString "\ntrace:".toList).length = 7 := by decide
  have h1 : (cString "\n".toList).length = 1 := by decide
  have hmem : name.length + 8 ∈ bbNameWrites name := by
    simp only [bbNameWrites, strcpyWrites, List.mem_append, List.mem_range', h1]
    exact Or.inr (Or.inr ⟨1, by omega, by omega⟩)
  refine ⟨hmem, fun hall => Nat.lt_irrefl _ (hall _ hmem), ?_, bbNameString_length name⟩
  intro i hi
  simp only [bbNameWrites, strcpyWrites, List.mem_append, List.mem_range', h1, h7] at hi
  rcases hi with ⟨j, hj, rfl⟩ | ⟨j, hj, rfl⟩ | ⟨j, hj, rfl⟩ <;> omega

end Tracer
